import Mathlib

/-!
Verification of the edit-tag spell-correction core (backend/edit_tag_spellfix).

The definitions below are a shallow embedding of:
  * difflib.SequenceMatcher as instantiated by tags.py, i.e. with
    isjunk=None and autojunk=True.  With isjunk=None the junk set is
    empty, so the two junk-extension while loops of find_longest_match
    are no-ops and are not reproduced; the autojunk "popular element"
    filtering of b2j is reproduced.
  * tags.py: KEEP/DELETE/INSERT_/REPLACE_ constants, is_insert,
    is_replace, strip-payload helper, diff_to_tags, build_tag_vocab.
  * predict.py / model_loader.py: apply_tags.
  * data.py: the label-assignment core of TagDatasetBuilder.encode_examples.

Machine integers do not occur; Python ints are Nat (indices, sizes) or
Int (the -100 ignore sentinel).  Python dicts are modelled as functions
Nat -> Nat (the j2len chain dictionary, absent key = 0, matching
dict.get(key, 0)) or association lists (the tag vocabulary).  Python
list indexing a[i] on indices that are in range in every reachable state
is modelled with getD.
-/

namespace Spellfix

abbrev Token := String

/-! ## Tag constants and helpers (tags.py) -/

def KEEP : String := "KEEP"
def DELETE : String := "DELETE"
def INSERT : String := "INSERT_"
def REPLACE : String := "REPLACE_"

/-- Python str.startswith: the first string starts with the second. -/
def pyStartswith (s pre : String) : Bool := pre.data.isPrefixOf s.data

def is_insert (tag : String) : Bool := pyStartswith tag INSERT

def is_replace (tag : String) : Bool := pyStartswith tag REPLACE

/-- Everything after the first underscore of the char list, if any. -/
def afterUnderscore : List Char → Option (List Char)
  | [] => none
  | c :: rest => if c = '_' then some rest else afterUnderscore rest

/-- tags.py strip-payload helper: tag.split("_", 1)[1] if "_" in tag else "".
    (The source names it with a python keyword-like suffix; the behaviour
    is: substring after the first underscore, or "" if no underscore.) -/
def stripTagPayload (tag : String) : String :=
  match afterUnderscore tag.data with
  | some rest => String.mk rest
  | none => ""

/-! ## difflib.SequenceMatcher(None, a, b) -/

/-- autojunk: an element of b is "popular" when len(b) >= 200 and it
    occurs more than len(b) // 100 + 1 times; popular elements are
    removed from b2j. -/
def isPopular (b : List Token) (t : Token) : Bool :=
  decide (200 ≤ b.length) && decide (b.length / 100 + 1 < b.count t)

/-- b2j maps an element value to the ascending list of its indices in b,
    with popular elements removed (autojunk, isjunk=None). -/
def b2j (b : List Token) (t : Token) : List Nat :=
  if isPopular b t then []
  else (List.range b.length).filter (fun j => decide (b.getD j "" = t))

/-- The inner loop's traversal of b2j[a[i]]:
    "if j < blo: continue / if j >= bhi: break". -/
def innerJs (blo bhi : Nat) : List Nat → List Nat
  | [] => []
  | j :: rest =>
    if j < blo then innerJs blo bhi rest
    else if bhi ≤ j then []
    else j :: innerJs blo bhi rest

/-- One row of find_longest_match's chain loop: walks the admissible js,
    builds newj2len (starting from the all-zero dict) and updates the
    running best.  k = j2len.get(j-1, 0) + 1, reading the previous row's
    dict (key -1 is always absent, hence the j = 0 case). -/
def innerLoop (i : Nat) (old : Nat → Nat) :
    List Nat → (Nat → Nat) → Nat × Nat × Nat → (Nat → Nat) × (Nat × Nat × Nat)
  | [], new, best => (new, best)
  | j :: rest, new, best =>
    let k := (if j = 0 then 0 else old (j - 1)) + 1
    let new' : Nat → Nat := fun x => if x = j then k else new x
    let best' := if best.2.2 < k then (i + 1 - k, j + 1 - k, k) else best
    innerLoop i old rest new' best'

/-- The outer loop of find_longest_match over rows i in range(alo, ahi). -/
def flmLoop (a b : List Token) (blo bhi : Nat) :
    List Nat → (Nat → Nat) → Nat × Nat × Nat → (Nat → Nat) × (Nat × Nat × Nat)
  | [], dict, best => (dict, best)
  | i :: rows, dict, best =>
    let js := innerJs blo bhi (b2j b (a.getD i ""))
    let p := innerLoop i dict js (fun _ => 0) best
    flmLoop a b blo bhi rows p.1 p.2

/-- "while besti > alo and bestj > blo and a[besti-1] == b[bestj-1]:
       besti, bestj, bestsize = besti-1, bestj-1, bestsize+1"
    (the not-junk test is vacuous with isjunk=None). -/
def extendBack (a b : List Token) (alo blo : Nat) :
    Nat → Nat → Nat → Nat × Nat × Nat
  | 0, bestj, bestsize => (0, bestj, bestsize)
  | besti + 1, bestj, bestsize =>
    if alo < besti + 1 ∧ blo < bestj ∧ a.getD besti "" = b.getD (bestj - 1) "" then
      extendBack a b alo blo besti (bestj - 1) (bestsize + 1)
    else (besti + 1, bestj, bestsize)

/-- "while besti+bestsize < ahi and bestj+bestsize < bhi and
       a[besti+bestsize] == b[bestj+bestsize]: bestsize += 1".
    fuel = ahi - (besti + bestsize) encodes the first conjunct. -/
def extendFwdGo (a b : List Token) (bhi besti bestj : Nat) :
    Nat → Nat → Nat
  | 0, s => s
  | fuel + 1, s =>
    if bestj + s < bhi ∧ a.getD (besti + s) "" = b.getD (bestj + s) "" then
      extendFwdGo a b bhi besti bestj fuel (s + 1)
    else s

/-- find_longest_match(alo, ahi, blo, bhi) of SequenceMatcher(None, a, b). -/
def findLongestMatch (a b : List Token) (alo ahi blo bhi : Nat) :
    Nat × Nat × Nat :=
  let best := (flmLoop a b blo bhi (List.range' alo (ahi - alo))
                (fun _ => 0) (alo, blo, 0)).2
  let eb := extendBack a b alo blo best.1 best.2.1 best.2.2
  let k := extendFwdGo a b bhi eb.1 eb.2.1 (ahi - (eb.1 + eb.2.2)) eb.2.2
  (eb.1, eb.2.1, k)

/-- The queue-driven block collection of get_matching_blocks, written as
    a recursion over the subranges (the queue order is irrelevant because
    the result is sorted afterwards).  The fuel argument bounds the
    recursion depth by the a-range size; fuel = ahi - alo always
    suffices (findLongestMatch_bounds below), so the fuel-exhaustion
    branch is unreachable from getMatchingBlocks. -/
def matchingBlocksFuel (a b : List Token) :
    Nat → Nat → Nat → Nat → Nat → List (Nat × Nat × Nat)
  | 0, _, _, _, _ => []
  | fuel + 1, alo, ahi, blo, bhi =>
    let m := findLongestMatch a b alo ahi blo bhi
    if m.2.2 = 0 then []
    else
      (if alo < m.1 ∧ blo < m.2.1 then
        matchingBlocksFuel a b fuel alo m.1 blo m.2.1
      else []) ++
      m ::
      (if m.1 + m.2.2 < ahi ∧ m.2.1 + m.2.2 < bhi then
        matchingBlocksFuel a b fuel (m.1 + m.2.2) ahi (m.2.1 + m.2.2) bhi
      else [])

/-- Python tuple comparison on (i, j, size). -/
def blockLe (x y : Nat × Nat × Nat) : Bool :=
  decide (x.1 < y.1 ∨ (x.1 = y.1 ∧ (x.2.1 < y.2.1 ∨
    (x.2.1 = y.2.1 ∧ x.2.2 ≤ y.2.2))))

def insertBlock (x : Nat × Nat × Nat) :
    List (Nat × Nat × Nat) → List (Nat × Nat × Nat)
  | [] => [x]
  | y :: rest => if blockLe x y then x :: y :: rest else y :: insertBlock x rest

/-- matching_blocks.sort() (a stable sort; the input is in fact already
    sorted, see sortBlocks_of_pairwise below). -/
def sortBlocks : List (Nat × Nat × Nat) → List (Nat × Nat × Nat)
  | [] => []
  | x :: rest => insertBlock x (sortBlocks rest)

/-- The adjacent-block collapsing loop of get_matching_blocks, started
    with the accumulator (i1, j1, k1) = (0, 0, 0). -/
def collapseBlocks : Nat × Nat × Nat → List (Nat × Nat × Nat) →
    List (Nat × Nat × Nat)
  | acc, [] => if acc.2.2 ≠ 0 then [acc] else []
  | acc, (i2, j2, k2) :: rest =>
    if acc.1 + acc.2.2 = i2 ∧ acc.2.1 + acc.2.2 = j2 then
      collapseBlocks (acc.1, acc.2.1, acc.2.2 + k2) rest
    else
      (if acc.2.2 ≠ 0 then [acc] else []) ++ collapseBlocks (i2, j2, k2) rest

/-- get_matching_blocks: collected blocks, sorted, collapsed, with the
    terminating sentinel (len(a), len(b), 0). -/
def getMatchingBlocks (a b : List Token) : List (Nat × Nat × Nat) :=
  collapseBlocks (0, 0, 0)
    (sortBlocks (matchingBlocksFuel a b a.length 0 a.length 0 b.length))
  ++ [(a.length, b.length, 0)]

structure Opcode where
  op : String
  i1 : Nat
  i2 : Nat
  j1 : Nat
  j2 : Nat
deriving DecidableEq

/-- get_opcodes: walk the matching blocks with cursors (i, j), emitting
    a replace/delete/insert opcode for the gap before each block and an
    equal opcode for the block itself when its size is nonzero. -/
def opcodesLoop : Nat → Nat → List (Nat × Nat × Nat) → List Opcode
  | _, _, [] => []
  | i, j, (ai, bj, size) :: rest =>
    (if i < ai ∧ j < bj then [⟨"replace", i, ai, j, bj⟩]
     else if i < ai then [⟨"delete", i, ai, j, bj⟩]
     else if j < bj then [⟨"insert", i, ai, j, bj⟩]
     else []) ++
    (if size ≠ 0 then [⟨"equal", ai, ai + size, bj, bj + size⟩] else []) ++
    opcodesLoop (ai + size) (bj + size) rest

def getOpcodes (a b : List Token) : List Opcode :=
  opcodesLoop 0 0 (getMatchingBlocks a b)

/-! ## diff_to_tags (tags.py) -/

structure TaggedExample where
  tokens : List Token
  tags : List String
  gap_tags : List String
deriving DecidableEq

/-- Python slice xs[l:r] for 0 <= l <= r (clamping to the length). -/
def pySlice (xs : List Token) (l r : Nat) : List Token :=
  (xs.drop l).take (r - l)

/-- Processing of a single opcode when the delete+insert fusion does not
    apply: the equal / delete / replace / insert branches of the while
    loop in diff_to_tags.  Returns the updated (tags, gaps). -/
def stepNoFuse (orig cor : List Token) (op : Opcode)
    (tags gaps : List String) : List String × List String :=
  if op.op = "equal" then
    (tags ++ List.replicate (op.i2 - op.i1) KEEP, gaps)
  else if op.op = "delete" then
    (tags ++ List.replicate (op.i2 - op.i1) DELETE, gaps)
  else if op.op = "replace" then
    let span_orig := pySlice orig op.i1 op.i2
    let span_cor := pySlice cor op.j1 op.j2
    if span_orig.length = span_cor.length then
      (tags ++ span_cor.map (fun t => REPLACE ++ t), gaps)
    else
      let tags' := tags ++ List.replicate span_orig.length DELETE
      (tags', gaps.set tags'.length
        (String.intercalate " " (span_cor.map (fun t => INSERT ++ t))))
  else if op.op = "insert" then
    (tags, gaps.set tags.length
      (String.intercalate " " ((pySlice cor op.j1 op.j2).map
        (fun t => INSERT ++ t))))
  else (tags, gaps)

/-- The opcode walk of diff_to_tags, including the look-ahead that fuses
    a one-token delete immediately followed by a one-token insert into a
    single REPLACE_x tag (consuming the insert opcode). -/
def diffWalk (orig cor : List Token) :
    List Opcode → List String → List String → List String × List String
  | [], tags, gaps => (tags, gaps)
  | [op], tags, gaps => stepNoFuse orig cor op tags gaps
  | op :: next :: rest, tags, gaps =>
    if op.op = "delete" ∧ next.op = "insert" ∧ op.i2 - op.i1 = 1 ∧
        next.j2 - next.j1 = 1 then
      diffWalk orig cor rest
        (tags ++ [REPLACE ++ cor.getD next.j1 ""]) gaps
    else
      let p := stepNoFuse orig cor op tags gaps
      diffWalk orig cor (next :: rest) p.1 p.2

/-- diff_to_tags(orig_tokens, cor_tokens).  The trailing
    assert len(tags) == len(orig_tokens) is the subject of claim C1. -/
def diff_to_tags (orig_tokens cor_tokens : List Token) : TaggedExample :=
  let opcodes := getOpcodes orig_tokens cor_tokens
  let p := diffWalk orig_tokens cor_tokens opcodes []
    (List.replicate (orig_tokens.length + 1) "KEEP_GAP")
  ⟨orig_tokens, p.1, p.2⟩

/-! ## apply_tags (predict.py; model_loader.py has an identical copy) -/

/-- The loop body of apply_tags over zip(tokens, tags). -/
def applyLoop : List (String × String) → List String
  | [] => []
  | (tok, tg) :: rest =>
    (if tg = KEEP then [tok]
     else if tg = DELETE then []
     else if is_replace tg then [ stripTagPayload tg]
     else [tok]) ++ applyLoop rest

def apply_tags (tokens tags : List String) : String :=
  String.intercalate " " (applyLoop (tokens.zip tags))

/-! ## build_tag_vocab (tags.py) -/

def listMem (x : String) : List String → Bool
  | [] => false
  | y :: rest => if y = x then true else listMem x rest

/-- Set formation: keep one copy of every element. -/
def dedupTags : List String → List String
  | [] => []
  | x :: rest => if listMem x rest then dedupTags rest else x :: dedupTags rest

/-- Python string comparison: lexicographic on code points. -/
def charListLe : List Char → List Char → Bool
  | [], _ => true
  | _ :: _, [] => false
  | c :: cs, d :: ds =>
    if c < d then true else if d < c then false else charListLe cs ds

def pyStrLe (s t : String) : Bool := charListLe s.data t.data

def insertStr (x : String) : List String → List String
  | [] => [x]
  | y :: rest => if pyStrLe x y then x :: y :: rest else y :: insertStr x rest

/-- sorted(...) on a list of strings. -/
def sortStrings : List String → List String
  | [] => []
  | x :: rest => insertStr x (sortStrings rest)

/-- build_tag_vocab: tag_set = set union of KEEP, DELETE and every
    per-token tag of every example (gap tags are not consulted);
    tag_list = sorted(tag_set); mapping tag -> position. -/
def build_tag_vocab (examples : List TaggedExample) :
    List String × List (String × Nat) :=
  let tag_list := sortStrings
    (dedupTags (KEEP :: DELETE :: (examples.map (·.tags)).flatten))
  (tag_list, tag_list.enum.map (fun p => (p.2, p.1)))

/-! ## Label assignment (data.py, TagDatasetBuilder.encode_examples) -/

/-- Python dict lookup on the tag2id association list. -/
def assocLookup : List (String × Nat) → String → Option Nat
  | [], _ => none
  | (k, v) :: rest, t => if k = t then some v else assocLookup rest t

/-- tag = tag_seq[w_id] if w_id < len(tag_seq) else KEEP -/
def tagAt (tag_seq : List String) (w : Nat) : String :=
  if w < tag_seq.length then tag_seq.getD w "" else KEEP

/-- The label for one sub-token position: -100 for non-word positions
    and non-leading sub-tokens; tag2id.get(tag, tag2id[KEEP]) at the
    first sub-token of each word.  none models the KeyError raised when
    KEEP itself is missing from the vocabulary (Python evaluates
    tag2id[KEEP] before .get falls back to it). -/
def labelAt (word_ids : List (Option Nat)) (tag_seq : List String)
    (tag2id : List (String × Nat)) (idx : Nat) : Option Int :=
  match word_ids.getD idx none with
  | none => some (-100)
  | some w =>
    if idx = 0 ∨ word_ids.getD (idx - 1) none ≠ some w then
      match assocLookup tag2id KEEP with
      | none => none
      | some kid =>
        some (((assocLookup tag2id (tagAt tag_seq w)).getD kid : Nat) : Int)
    else some (-100)

/-- The labels array of one encoded example: one entry per sub-token
    position of word_ids. -/
def encode_labels (word_ids : List (Option Nat)) (tag_seq : List String)
    (tag2id : List (String × Nat)) : Option (List Int) :=
  (List.range word_ids.length).mapM (labelAt word_ids tag_seq tag2id)

/-! ## Specification-side and proof-infrastructure definitions -/

/-- Spec reading of one reconstruction step (section 4.4 of the spec):
    KEEP emits the token, DELETE emits nothing, a REPLACE tag emits its
    payload, anything else falls back to the token. -/
def specEmit (pair : String × String) : List String :=
  if pair.2 = KEEP then [pair.1]
  else if pair.2 = DELETE then []
  else if is_replace pair.2 then [ stripTagPayload pair.2]
  else [pair.1]

/-- The opcode walk with the delete+insert fusion branch removed: every
    opcode is handled by stepNoFuse (claim C9's variant). -/
def walkNoFuse (orig cor : List Token) :
    List Opcode → List String → List String → List String × List String
  | [], tags, gaps => (tags, gaps)
  | op :: rest, tags, gaps =>
    let p := stepNoFuse orig cor op tags gaps
    walkNoFuse orig cor rest p.1 p.2

/-- diff_to_tags with the fusion branch removed (claim C9's variant). -/
def diff_to_tagsNoFusion (orig_tokens cor_tokens : List Token) :
    TaggedExample :=
  let opcodes := getOpcodes orig_tokens cor_tokens
  let p := walkNoFuse orig_tokens cor_tokens opcodes []
    (List.replicate (orig_tokens.length + 1) "KEEP_GAP")
  ⟨orig_tokens, p.1, p.2⟩

/-- No delete opcode is immediately followed by an insert opcode. -/
def noDelIns : List Opcode → Prop
  | [] => True
  | [_] => True
  | a :: b :: rest => ¬(a.op = "delete" ∧ b.op = "insert") ∧ noDelIns (b :: rest)

/-- Well-formedness of a matching-block list relative to cursors (i, j)
    and exclusive upper bounds (ahi, bhi): blocks are nonempty, ordered,
    non-overlapping and in range. -/
def blocksWFE (ahi bhi : Nat) : Nat → Nat → List (Nat × Nat × Nat) → Prop
  | i, j, [] => i ≤ ahi ∧ j ≤ bhi
  | i, j, (ai, bj, k) :: rest =>
    i ≤ ai ∧ j ≤ bj ∧ 1 ≤ k ∧ ai + k ≤ ahi ∧ bj + k ≤ bhi ∧
    blocksWFE ahi bhi (ai + k) (bj + k) rest

/-- Well-formedness of an opcode list produced by get_opcodes on token
    lists of lengths n and m: opcodes chain the cursors from (i, j) to
    (n, m) and each opcode's kind constrains its spans. -/
def opsWF (n m : Nat) : Nat → Nat → List Opcode → Prop
  | i, j, [] => i = n ∧ j = m
  | i, j, op :: rest =>
    op.i1 = i ∧ op.j1 = j ∧ op.i1 ≤ op.i2 ∧ op.i2 ≤ n ∧ op.j1 ≤ op.j2 ∧
    op.j2 ≤ m ∧
    ((op.op = "equal" ∧ op.i2 - op.i1 = op.j2 - op.j1) ∨
     (op.op = "delete" ∧ op.j1 = op.j2) ∨
     (op.op = "insert" ∧ op.i1 = op.i2 ∧ op.j1 < op.j2) ∨
     (op.op = "replace" ∧ op.i1 < op.i2 ∧ op.j1 < op.j2)) ∧
    opsWF n m op.i2 op.j2 rest

/-- Diagonal opcode lists (both spans at identical index ranges), with
    only equal/replace opcodes, where equal opcodes cover positions on
    which the two token lists agree. -/
def opsDiag (a b : List Token) (ops : List Opcode) : Prop :=
  ∀ op ∈ ops, op.i1 = op.j1 ∧ op.i2 = op.j2 ∧
    (op.op = "equal" ∨ op.op = "replace") ∧
    (op.op = "equal" → ∀ t, op.i1 + t < op.i2 →
      a.getD (op.i1 + t) "" = b.getD (op.i1 + t) "")

/-- The tags emitted by the walk on a diagonal opcode list. -/
def diagTagsFor (cor : List Token) : List Opcode → List String
  | [] => []
  | op :: rest =>
    (if op.op = "equal" then List.replicate (op.i2 - op.i1) KEEP
     else (pySlice cor op.j1 op.j2).map (fun t => REPLACE ++ t)) ++
    diagTagsFor cor rest

/-- A well-formed gap entry: untouched ("KEEP_GAP") or a space-joined
    nonempty list of INSERT_ symbols. -/
def goodGap (g : String) : Prop :=
  g = "KEEP_GAP" ∨ ∃ ws : List Token, ws ≠ [] ∧
    g = String.intercalate " " (ws.map (fun w => INSERT ++ w))

/-- The amended hypothesis of claim C3: equal lengths, and every
    position is either unchanged or substituted by a token foreign to
    the other sequence. -/
def substOnly (a b : List Token) : Prop :=
  a.length = b.length ∧ ∀ i, i < a.length →
    a.getD i "" = b.getD i "" ∨ (a.getD i "" ∉ b ∧ b.getD i "" ∉ a)

/-- A diagonal matching block: both sides at the same index range, on
    which the two token lists agree. -/
def diagBlock (a b : List Token) (blk : Nat × Nat × Nat) : Prop :=
  blk.1 = blk.2.1 ∧ ∀ t, t < blk.2.2 →
    a.getD (blk.1 + t) "" = b.getD (blk.1 + t) ""

/-- Membership test for the inner chain loop: j is visited at row i iff
    it lies in b2j[a[i]] and in [blo, bhi). -/
def condJ (a b : List Token) (blo bhi : Nat) (i j : Nat) : Bool :=
  decide (blo ≤ j) && decide (j < bhi) &&
    decide (j ∈ b2j b (a.getD i ""))

/-- The mathematical chain-length function mirrored by the j2len dict of
    find_longest_match: chainF i j is the length of the match diagonal
    ending at row i, column j, counting rows from alo. -/
def chainF (a b : List Token) (alo blo bhi : Nat) : Nat → Nat → Nat
  | 0, j => if condJ a b blo bhi 0 j then 1 else 0
  | i + 1, j =>
    if condJ a b blo bhi (i + 1) j then
      (if alo < i + 1 ∧ 0 < j then chainF a b alo blo bhi i (j - 1) else 0) + 1
    else 0

/-! ## String-level lemmas about tag encoding -/

theorem afterUnderscore_replace (l : List Char) :
    afterUnderscore (REPLACE.data ++ l) = some l := rfl

theorem stripTagPayload_replace (w : String) :
    stripTagPayload (REPLACE ++ w) = w := by
  unfold stripTagPayload
  rw [String.data_append, afterUnderscore_replace]

theorem is_replace_replace_append (w : String) :
    is_replace (REPLACE ++ w) = true := by
  simp only [is_replace, pyStartswith, List.isPrefixOf_iff_prefix,
    String.data_append]
  exact List.prefix_append REPLACE.data w.data

theorem replace_append_ne_keep (w : String) : REPLACE ++ w ≠ KEEP := by
  intro h
  have h2 := congrArg (fun s => s.data.head?) h
  have h3 : (some 'R' : Option Char) = some 'K' := h2
  simp at h3

theorem replace_append_ne_delete (w : String) : REPLACE ++ w ≠ DELETE := by
  intro h
  have h2 := congrArg (fun s => s.data.head?) h
  have h3 : (some 'R' : Option Char) = some 'D' := h2
  simp at h3

/-! ## apply_tags: reconstruction semantics (claims C5, C10) -/

theorem applyLoop_eq_flatMap (l : List (String × String)) :
    applyLoop l = l.flatMap specEmit := by
  induction l with
  | nil => rfl
  | cons p rest ih =>
    obtain ⟨tok, tg⟩ := p
    simp only [applyLoop, List.flatMap_cons, ih, specEmit]

/-- Claim C5: reconstruction emits the token for KEEP, nothing for
    DELETE, the stripped payload for REPLACE tags, and falls back to the
    original token on any other tag; the pieces are joined with single
    spaces (and the function is total, hence never fails). -/
theorem apply_tags_spec (tokens tags : List String)
    (_h : tokens.length = tags.length) :
    apply_tags tokens tags =
      String.intercalate " " ((tokens.zip tags).flatMap specEmit) ∧
    (∀ tok, specEmit (tok, KEEP) = [tok]) ∧
    (∀ tok, specEmit (tok, DELETE) = []) ∧
    (∀ tok w, specEmit (tok, REPLACE ++ w) = [w]) ∧
    (∀ tok tg, tg ≠ KEEP → tg ≠ DELETE → is_replace tg = false →
      specEmit (tok, tg) = [tok]) := by
  refine ⟨by rw [apply_tags, applyLoop_eq_flatMap], fun tok => rfl,
    fun tok => by simp [specEmit, KEEP, DELETE], fun tok w => ?_,
    fun tok tg h1 h2 h3 => by simp [specEmit, h1, h2, h3]⟩
  simp [specEmit, replace_append_ne_keep, replace_append_ne_delete,
    is_replace_replace_append, stripTagPayload_replace]

/-- Witness for claim C5 at a concrete input exercising all branches. -/
theorem apply_tags_spec_witness :
    apply_tags ["x", "y", "z", "w"] ["KEEP", "DELETE", "REPLACE_q", "odd"] =
      String.intercalate " "
        (([("x", "KEEP"), ("y", "DELETE"), ("z", "REPLACE_q"),
           ("w", "odd")] : List (String × String)).flatMap specEmit) :=
  (apply_tags_spec ["x", "y", "z", "w"] ["KEEP", "DELETE", "REPLACE_q", "odd"]
    (by decide)).1

theorem zip_take_min (xs ys : List String) :
    xs.zip ys = (xs.take (min xs.length ys.length)).zip
      (ys.take (min xs.length ys.length)) := by
  induction xs generalizing ys with
  | nil => simp
  | cons x xs ih =>
    cases ys with
    | nil => simp
    | cons y ys =>
      simp only [List.zip_cons_cons, List.length_cons, Nat.succ_min_succ,
        List.take_succ_cons]
      rw [← ih]

theorem zip_append_left (ys : List String) :
    ∀ (xs extra : List String), ys.length ≤ xs.length →
      (xs ++ extra).zip ys = xs.zip ys := by
  induction ys with
  | nil => simp
  | cons y ys ih =>
    intro xs extra hlen
    cases xs with
    | nil => simp at hlen
    | cons x xs =>
      simp only [List.cons_append, List.zip_cons_cons]
      rw [ih xs extra (by simpa using hlen)]

/-- Claim C10: apply_tags silently truncates to the shorter of the two
    lists; in particular trailing tokens beyond the tag list are dropped
    without error. -/
theorem apply_tags_truncation (tokens tags : List String) :
    apply_tags tokens tags =
      apply_tags (tokens.take (min tokens.length tags.length))
        (tags.take (min tokens.length tags.length)) ∧
    (∀ extra, tags.length = tokens.length →
      apply_tags (tokens ++ extra) tags = apply_tags tokens tags) := by
  constructor
  · rw [apply_tags, apply_tags, ← zip_take_min]
  · intro extra hlen
    rw [apply_tags, apply_tags, zip_append_left tags tokens extra hlen.le]

/-- Witness for claim C10: three tokens, one tag; the two trailing
    tokens are dropped. -/
theorem apply_tags_truncation_witness :
    apply_tags ["a", "b", "c"] ["KEEP"] =
      apply_tags (["a", "b", "c"].take (min 3 1)) (["KEEP"].take (min 3 1)) ∧
    apply_tags (["a"] ++ ["z", "w"]) ["KEEP"] = apply_tags ["a"] ["KEEP"] :=
  ⟨(apply_tags_truncation ["a", "b", "c"] ["KEEP"]).1,
   (apply_tags_truncation ["a"] ["KEEP"]).2 ["z", "w"] (by decide)⟩

/-! ## Claim C2: the documented scenario -/

/-- Claim C2 as stated is false on the code: for the scenario pair the
    two-token span "fuil stack" against the single token "full-stack"
    is an unequal-length replace opcode, which the algorithm turns into
    DELETE tags plus a gap insert, not into a fused REPLACE tag. -/
theorem scenario_counterexample :
    ¬((diff_to_tags
        ["a", "fuil", "stack", "engineer", "huilding", "web", "apps"]
        ["a", "full-stack", "engineer", "building", "web", "apps"]).tags.getD
          1 "" = "REPLACE_full-stack" ∧
      (diff_to_tags
        ["a", "fuil", "stack", "engineer", "huilding", "web", "apps"]
        ["a", "full-stack", "engineer", "building", "web", "apps"]).tags.getD
          3 "" = "REPLACE_building" ∧
      apply_tags ["a", "fuil", "stack", "engineer", "huilding", "web", "apps"]
        (diff_to_tags
          ["a", "fuil", "stack", "engineer", "huilding", "web", "apps"]
          ["a", "full-stack", "engineer", "building", "web", "apps"]).tags =
        "a full-stack engineer building web apps") := by
  decide

/-- Claim C2, amended to what the code actually does on the scenario:
    "fuil" and "stack" are deleted with gap entry INSERT_full-stack at
    gap index 3, "huilding" gets REPLACE_building at index 4, and since
    reconstruction ignores gap tags it yields
    "a engineer building web apps". -/
theorem scenario_actual :
    (diff_to_tags ["a", "fuil", "stack", "engineer", "huilding", "web", "apps"]
      ["a", "full-stack", "engineer", "building", "web", "apps"]).tags =
      ["KEEP", "DELETE", "DELETE", "KEEP", "REPLACE_building", "KEEP",
       "KEEP"] ∧
    (diff_to_tags ["a", "fuil", "stack", "engineer", "huilding", "web", "apps"]
      ["a", "full-stack", "engineer", "building", "web", "apps"]).gap_tags =
      ["KEEP_GAP", "KEEP_GAP", "KEEP_GAP", "INSERT_full-stack", "KEEP_GAP",
       "KEEP_GAP", "KEEP_GAP", "KEEP_GAP"] ∧
    apply_tags ["a", "fuil", "stack", "engineer", "huilding", "web", "apps"]
      (diff_to_tags ["a", "fuil", "stack", "engineer", "huilding", "web", "apps"]
        ["a", "full-stack", "engineer", "building", "web", "apps"]).tags =
      "a engineer building web apps" := by
  decide

/-! ## build_tag_vocab: sorted deterministic vocabulary (claim C6) -/

theorem listMem_iff (x : String) : ∀ l : List String, listMem x l = true ↔ x ∈ l := by
  intro l
  induction l with
  | nil => simp [listMem]
  | cons y rest ih =>
    by_cases h : y = x
    · simp [listMem, h]
    · simp [listMem, h, ih, Ne.symm h]

theorem dedupTags_mem (x : String) :
    ∀ l : List String, x ∈ dedupTags l ↔ x ∈ l := by
  intro l
  induction l with
  | nil => simp [dedupTags]
  | cons y rest ih =>
    by_cases h : listMem y rest = true
    · rw [dedupTags, if_pos h, ih]
      have hy : y ∈ rest := (listMem_iff y rest).mp h
      constructor
      · exact fun hx => List.mem_cons_of_mem y hx
      · intro hx
        rcases List.mem_cons.mp hx with rfl | hx
        · exact hy
        · exact hx
    · rw [dedupTags, if_neg h]
      simp [ih]

theorem dedupTags_nodup : ∀ l : List String, (dedupTags l).Nodup := by
  intro l
  induction l with
  | nil => exact List.nodup_nil
  | cons y rest ih =>
    by_cases h : listMem y rest = true
    · rw [dedupTags, if_pos h]; exact ih
    · rw [dedupTags, if_neg h]
      refine List.nodup_cons.mpr ⟨fun hmem => ?_, ih⟩
      exact h ((listMem_iff y rest).mpr ((dedupTags_mem y rest).mp hmem))

theorem charListLe_total : ∀ xs ys : List Char,
    charListLe xs ys = true ∨ charListLe ys xs = true := by
  intro xs
  induction xs with
  | nil => intro ys; left; rfl
  | cons c cs ih =>
    intro ys
    cases ys with
    | nil => right; rfl
    | cons d ds =>
      rcases lt_trichotomy c d with h | h | h
      · left; simp [charListLe, h]
      · subst h
        rcases ih ds with h2 | h2
        · left; simp [charListLe, lt_irrefl, h2]
        · right; simp [charListLe, lt_irrefl, h2]
      · right; simp [charListLe, h]

theorem charListLe_antisymm : ∀ xs ys : List Char,
    charListLe xs ys = true → charListLe ys xs = true → xs = ys := by
  intro xs
  induction xs with
  | nil =>
    intro ys _ h2
    cases ys with
    | nil => rfl
    | cons d ds => simp [charListLe] at h2
  | cons c cs ih =>
    intro ys h1 h2
    cases ys with
    | nil => simp [charListLe] at h1
    | cons d ds =>
      rcases lt_trichotomy c d with h | h | h
      · simp [charListLe, h, asymm h] at h2
      · subst h
        simp only [charListLe, lt_irrefl, if_neg (lt_irrefl c), if_false] at h1 h2
        rw [ih ds h1 h2]
      · simp [charListLe, h, asymm h] at h1

theorem charListLe_trans : ∀ xs ys zs : List Char,
    charListLe xs ys = true → charListLe ys zs = true →
    charListLe xs zs = true := by
  intro xs
  induction xs with
  | nil => intro ys zs _ _; rfl
  | cons c cs ih =>
    intro ys zs h1 h2
    cases ys with
    | nil => simp [charListLe] at h1
    | cons d ds =>
      cases zs with
      | nil => simp [charListLe] at h2
      | cons e es =>
        rcases lt_trichotomy c d with hcd | hcd | hcd
        · rcases lt_trichotomy d e with hde | hde | hde
          · simp [charListLe, lt_trans hcd hde]
          · subst hde; simp [charListLe, hcd]
          · simp [charListLe, hde, asymm hde] at h2
        · subst hcd
          rcases lt_trichotomy c e with hce | hce | hce
          · simp [charListLe, hce]
          · subst hce
            simp only [charListLe, lt_irrefl, if_neg (lt_irrefl c),
              if_false] at h1 h2 ⊢
            exact ih ds es h1 h2
          · simp [charListLe, hce, asymm hce] at h2
        · simp [charListLe, hcd, asymm hcd] at h1

theorem pyStrLe_total (s t : String) :
    pyStrLe s t = true ∨ pyStrLe t s = true :=
  charListLe_total s.data t.data

theorem pyStrLe_antisymm (s t : String) (h1 : pyStrLe s t = true)
    (h2 : pyStrLe t s = true) : s = t :=
  String.ext (charListLe_antisymm s.data t.data h1 h2)

theorem pyStrLe_trans (s t u : String) (h1 : pyStrLe s t = true)
    (h2 : pyStrLe t u = true) : pyStrLe s u = true :=
  charListLe_trans s.data t.data u.data h1 h2

instance : IsAntisymm String (fun a b => pyStrLe a b = true) :=
  ⟨pyStrLe_antisymm⟩

theorem insertStr_perm (x : String) :
    ∀ l : List String, (insertStr x l).Perm (x :: l) := by
  intro l
  induction l with
  | nil => exact List.Perm.refl _
  | cons y rest ih =>
    by_cases h : pyStrLe x y = true
    · rw [insertStr, if_pos h]
    · rw [insertStr, if_neg h]
      exact (ih.cons y).trans (List.Perm.swap x y rest)

theorem insertStr_sorted (x : String) :
    ∀ l : List String, l.Pairwise (fun a b => pyStrLe a b = true) →
      (insertStr x l).Pairwise (fun a b => pyStrLe a b = true) := by
  intro l
  induction l with
  | nil => intro _; simp [insertStr]
  | cons y rest ih =>
    intro hp
    rcases List.pairwise_cons.mp hp with ⟨hy, hrest⟩
    by_cases h : pyStrLe x y = true
    · rw [insertStr, if_pos h]
      refine List.pairwise_cons.mpr ⟨?_, hp⟩
      intro z hz
      rcases List.mem_cons.mp hz with rfl | hz
      · exact h
      · exact pyStrLe_trans x y z h (hy z hz)
    · rw [insertStr, if_neg h]
      have hyx : pyStrLe y x = true := (pyStrLe_total x y).resolve_left h
      refine List.pairwise_cons.mpr ⟨?_, ih hrest⟩
      intro z hz
      have hz2 : z ∈ x :: rest := (insertStr_perm x rest).mem_iff.mp hz
      rcases List.mem_cons.mp hz2 with rfl | hz2
      · exact hyx
      · exact hy z hz2

theorem sortStrings_perm :
    ∀ l : List String, (sortStrings l).Perm l := by
  intro l
  induction l with
  | nil => exact List.Perm.refl _
  | cons x rest ih =>
    exact (insertStr_perm x (sortStrings rest)).trans (ih.cons x)

theorem sortStrings_sorted : ∀ l : List String,
    (sortStrings l).Pairwise (fun a b => pyStrLe a b = true) := by
  intro l
  induction l with
  | nil => simp [sortStrings]
  | cons x rest ih => exact insertStr_sorted x (sortStrings rest) ih

/-- Two builds over permuted example lists produce the same vocabulary. -/
theorem build_tag_vocab_perm_invariant (ex1 ex2 : List TaggedExample)
    (hperm : ex1.Perm ex2) : build_tag_vocab ex1 = build_tag_vocab ex2 := by
  have hsets : ∀ t, t ∈ dedupTags (KEEP :: DELETE :: (ex1.map (·.tags)).flatten) ↔
      t ∈ dedupTags (KEEP :: DELETE :: (ex2.map (·.tags)).flatten) := by
    intro t
    rw [dedupTags_mem, dedupTags_mem]
    have : ((ex1.map (·.tags)).flatten).Perm ((ex2.map (·.tags)).flatten) :=
      (hperm.map (·.tags)).flatten
    simp [this.mem_iff]
  have hp : (dedupTags (KEEP :: DELETE :: (ex1.map (·.tags)).flatten)).Perm
      (dedupTags (KEEP :: DELETE :: (ex2.map (·.tags)).flatten)) :=
    (List.perm_ext_iff_of_nodup (dedupTags_nodup _) (dedupTags_nodup _)).mpr hsets
  have hs : sortStrings (dedupTags (KEEP :: DELETE :: (ex1.map (·.tags)).flatten)) =
      sortStrings (dedupTags (KEEP :: DELETE :: (ex2.map (·.tags)).flatten)) := by
    refine List.eq_of_perm_of_sorted
      (r := fun a b => pyStrLe a b = true)
      ((sortStrings_perm _).trans (hp.trans (sortStrings_perm _).symm))
      (sortStrings_sorted _) (sortStrings_sorted _)
  rw [build_tag_vocab, build_tag_vocab, hs]

/-- Claim C6: the vocabulary always contains KEEP and DELETE, is exactly
    the set-union of the per-token tags (gap tags are not consulted), is
    sorted without duplicates with dense 0-based ids, and is invariant
    under permutations of the example list. -/
theorem build_tag_vocab_spec (ex1 ex2 : List TaggedExample)
    (hperm : ex1.Perm ex2) :
    KEEP ∈ (build_tag_vocab ex1).1 ∧ DELETE ∈ (build_tag_vocab ex1).1 ∧
    (∀ t, t ∈ (build_tag_vocab ex1).1 ↔
      (t = KEEP ∨ t = DELETE ∨ ∃ ex ∈ ex1, t ∈ ex.tags)) ∧
    (build_tag_vocab ex1).1.Pairwise (fun a b => pyStrLe a b = true) ∧
    (build_tag_vocab ex1).1.Nodup ∧
    (∀ t i, (t, i) ∈ (build_tag_vocab ex1).2 ↔
      (build_tag_vocab ex1).1[i]? = some t) ∧
    build_tag_vocab ex2 = build_tag_vocab ex1 := by
  have hmem : ∀ t, t ∈ (build_tag_vocab ex1).1 ↔
      (t = KEEP ∨ t = DELETE ∨ ∃ ex ∈ ex1, t ∈ ex.tags) := by
    intro t
    rw [build_tag_vocab]
    simp only [(sortStrings_perm _).mem_iff, dedupTags_mem, List.mem_cons,
      List.mem_flatten, List.mem_map]
    constructor
    · rintro (rfl | rfl | ⟨l, ⟨ex, hex, rfl⟩, ht⟩)
      · exact Or.inl rfl
      · exact Or.inr (Or.inl rfl)
      · exact Or.inr (Or.inr ⟨ex, hex, ht⟩)
    · rintro (rfl | rfl | ⟨ex, hex, ht⟩)
      · exact Or.inl rfl
      · exact Or.inr (Or.inl rfl)
      · exact Or.inr (Or.inr ⟨ex.tags, ⟨ex, hex, rfl⟩, ht⟩)
  refine ⟨(hmem KEEP).mpr (Or.inl rfl), (hmem DELETE).mpr (Or.inr (Or.inl rfl)),
    hmem, ?_, ?_, ?_, build_tag_vocab_perm_invariant ex2 ex1 hperm.symm⟩
  · rw [build_tag_vocab]; exact sortStrings_sorted _
  · rw [build_tag_vocab]
    exact (sortStrings_perm _).nodup_iff.mpr (dedupTags_nodup _)
  · intro t i
    rw [build_tag_vocab]
    simp only [List.mem_map, Prod.mk.injEq]
    constructor
    · rintro ⟨⟨i', t'⟩, hmem', ht', hi'⟩
      subst ht'; subst hi'
      exact List.mem_enum_iff_getElem?.mp hmem'
    · intro hget
      exact ⟨(i, t), List.mem_enum_iff_getElem?.mpr hget, rfl, rfl⟩

/-- Witness for claim C6 at a concrete pair of permuted example lists. -/
theorem build_tag_vocab_spec_witness :
    KEEP ∈ (build_tag_vocab [⟨["a"], ["REPLACE_x"], ["KEEP_GAP"]⟩,
      ⟨["b"], ["KEEP"], ["KEEP_GAP"]⟩]).1 ∧
    build_tag_vocab [⟨["b"], ["KEEP"], ["KEEP_GAP"]⟩,
      ⟨["a"], ["REPLACE_x"], ["KEEP_GAP"]⟩] =
      build_tag_vocab [⟨["a"], ["REPLACE_x"], ["KEEP_GAP"]⟩,
        ⟨["b"], ["KEEP"], ["KEEP_GAP"]⟩] := by
  have h := build_tag_vocab_spec
    [⟨["a"], ["REPLACE_x"], ["KEEP_GAP"]⟩, ⟨["b"], ["KEEP"], ["KEEP_GAP"]⟩]
    [⟨["b"], ["KEEP"], ["KEEP_GAP"]⟩, ⟨["a"], ["REPLACE_x"], ["KEEP_GAP"]⟩]
    (by decide)
  exact ⟨h.1, h.2.2.2.2.2.2⟩

/-! ## Label assignment (claim C7) -/

theorem mapM_of_forall_some (f : Nat → Option Int) :
    ∀ l : List Nat, (∀ i ∈ l, f i = some ((f i).getD 0)) →
      l.mapM f = some (l.map (fun i => (f i).getD 0)) := by
  intro l
  induction l with
  | nil => intro _; rfl
  | cons x rest ih =>
    intro h
    rw [List.mapM_cons, h x (List.mem_cons_self x rest),
      ih (fun i hi => h i (List.mem_cons_of_mem x hi))]
    rfl

theorem labelAt_of_none (word_ids : List (Option Nat)) (tag_seq : List String)
    (tag2id : List (String × Nat)) (idx : Nat)
    (hw : word_ids.getD idx none = none) :
    labelAt word_ids tag_seq tag2id idx = some (-100) := by
  unfold labelAt
  rw [hw]

theorem labelAt_of_notfirst (word_ids : List (Option Nat))
    (tag_seq : List String) (tag2id : List (String × Nat)) (idx w : Nat)
    (hw : word_ids.getD idx none = some w)
    (hnf : ¬(idx = 0 ∨ word_ids.getD (idx - 1) none ≠ some w)) :
    labelAt word_ids tag_seq tag2id idx = some (-100) := by
  unfold labelAt
  rw [hw]
  simp only [if_neg hnf]

theorem labelAt_of_first (word_ids : List (Option Nat))
    (tag_seq : List String) (tag2id : List (String × Nat)) (idx w kid : Nat)
    (hkeep : assocLookup tag2id KEEP = some kid)
    (hw : word_ids.getD idx none = some w)
    (hf : idx = 0 ∨ word_ids.getD (idx - 1) none ≠ some w) :
    labelAt word_ids tag_seq tag2id idx =
      some (((assocLookup tag2id (tagAt tag_seq w)).getD kid : Nat) : Int) := by
  unfold labelAt
  rw [hw]
  simp only [if_pos hf, hkeep]

theorem labelAt_some (word_ids : List (Option Nat)) (tag_seq : List String)
    (tag2id : List (String × Nat)) (kid : Nat)
    (hkeep : assocLookup tag2id KEEP = some kid) (idx : Nat) :
    labelAt word_ids tag_seq tag2id idx =
      some ((labelAt word_ids tag_seq tag2id idx).getD 0) := by
  unfold labelAt
  cases hwi : word_ids.getD idx none with
  | none => rfl
  | some w =>
    by_cases hfirst : idx = 0 ∨ word_ids.getD (idx - 1) none ≠ some w
    · simp only [if_pos hfirst, hkeep]
      rfl
    · simp only [if_neg hfirst]
      rfl

/-- Claim C7: every null-word position and every non-leading sub-token
    position gets the -100 ignore sentinel; the first sub-token position
    of a word gets a true (non-negative) tag id, falling back to KEEP's
    id when the word index exceeds the tag sequence or the tag is
    missing from the vocabulary; for a word whose sub-token positions
    form a run of length k, exactly the first of those k positions is
    non-ignore. -/
theorem encode_labels_spec (word_ids : List (Option Nat))
    (tag_seq : List String) (tag2id : List (String × Nat)) (kid : Nat)
    (hkeep : assocLookup tag2id KEEP = some kid) :
    ∃ labels, encode_labels word_ids tag_seq tag2id = some labels ∧
      labels.length = word_ids.length ∧
      (∀ idx, idx < word_ids.length →
        (word_ids.getD idx none = none → labels.getD idx 0 = -100) ∧
        (∀ w, word_ids.getD idx none = some w →
          (¬(idx = 0 ∨ word_ids.getD (idx - 1) none ≠ some w) →
            labels.getD idx 0 = -100) ∧
          ((idx = 0 ∨ word_ids.getD (idx - 1) none ≠ some w) →
            labels.getD idx 0 =
              (((assocLookup tag2id (tagAt tag_seq w)).getD kid : Nat) : Int) ∧
            0 ≤ labels.getD idx 0 ∧
            (tag_seq.length ≤ w → labels.getD idx 0 = (kid : Int)) ∧
            (assocLookup tag2id (tagAt tag_seq w) = none →
              labels.getD idx 0 = (kid : Int))))) ∧
      (∀ w s k, 1 ≤ k → s + k ≤ word_ids.length →
        (∀ idx, idx < word_ids.length →
          (word_ids.getD idx none = some w ↔ s ≤ idx ∧ idx < s + k)) →
        ∀ idx, s ≤ idx → idx < s + k →
          (labels.getD idx 0 ≠ -100 ↔ idx = s)) := by
  refine ⟨(List.range word_ids.length).map
      (fun i => (labelAt word_ids tag_seq tag2id i).getD 0), ?_, by simp, ?_, ?_⟩
  · exact mapM_of_forall_some _ _
      (fun i _ => labelAt_some word_ids tag_seq tag2id kid hkeep i)
  case refine_2 =>
    intro idx hidx
    have hget : (((List.range word_ids.length).map
        (fun i => (labelAt word_ids tag_seq tag2id i).getD 0)).getD idx 0) =
        (labelAt word_ids tag_seq tag2id idx).getD 0 := by
      rw [List.getD_eq_getElem _ _ (by simpa using hidx)]
      simp
    rw [hget]
    constructor
    · intro hnone
      rw [labelAt_of_none word_ids tag_seq tag2id idx hnone]
      rfl
    · intro w hw
      constructor
      · intro hnotfirst
        rw [labelAt_of_notfirst word_ids tag_seq tag2id idx w hw hnotfirst]
        rfl
      · intro hfirst
        have hval : (labelAt word_ids tag_seq tag2id idx).getD 0 =
            (((assocLookup tag2id (tagAt tag_seq w)).getD kid : Nat) : Int) := by
          rw [labelAt_of_first word_ids tag_seq tag2id idx w kid hkeep hw hfirst]
          rfl
        refine ⟨hval, by rw [hval]; exact Int.natCast_nonneg _, ?_, ?_⟩
        · intro hlen
          rw [hval]
          have htag : tagAt tag_seq w = KEEP := by
            simp [tagAt, Nat.not_lt.mpr hlen]
          rw [htag, hkeep]
          rfl
        · intro hmiss
          rw [hval, hmiss]
          rfl
  case refine_3 =>
    intro w s k hk hsk hrun idx hs hik
    have hidx : idx < word_ids.length := lt_of_lt_of_le hik hsk
    have hget : (((List.range word_ids.length).map
        (fun i => (labelAt word_ids tag_seq tag2id i).getD 0)).getD idx 0) =
        (labelAt word_ids tag_seq tag2id idx).getD 0 := by
      rw [List.getD_eq_getElem _ _ (by simpa using hidx)]
      simp
    rw [hget]
    have hw : word_ids.getD idx none = some w :=
      (hrun idx hidx).mpr ⟨hs, hik⟩
    rcases Nat.eq_or_lt_of_le hs with heq | hlt
    · have hfirst : idx = 0 ∨ word_ids.getD (idx - 1) none ≠ some w := by
        rcases Nat.eq_zero_or_pos idx with hz | hpos
        · exact Or.inl hz
        · refine Or.inr fun hcontra => ?_
          have hm1 : idx - 1 < word_ids.length :=
            lt_of_le_of_lt (Nat.sub_le idx 1) hidx
          have := (hrun (idx - 1) hm1).mp hcontra
          omega
      rw [labelAt_of_first word_ids tag_seq tag2id idx w kid hkeep hw hfirst]
      have hpos : (0 : Int) ≤
          (((assocLookup tag2id (tagAt tag_seq w)).getD kid : Nat) : Int) :=
        Int.natCast_nonneg _
      constructor
      · intro _; omega
      · intro _
        simp only [Option.getD_some]
        omega
    · have hnotfirst : ¬(idx = 0 ∨ word_ids.getD (idx - 1) none ≠ some w) := by
        push_neg
        refine ⟨by omega, ?_⟩
        have hm1 : idx - 1 < word_ids.length :=
          lt_of_le_of_lt (Nat.sub_le idx 1) hidx
        exact (hrun (idx - 1) hm1).mpr ⟨by omega, by omega⟩
      rw [labelAt_of_notfirst word_ids tag_seq tag2id idx w hw hnotfirst]
      simp only [Option.getD_some]
      constructor
      · intro hcontra; exact absurd rfl hcontra
      · intro hcontra; omega

/-- Witness for claim C7: one null position, a two-sub-token word, a
    word index beyond the tag sequence. -/
theorem encode_labels_spec_witness :
    assocLookup [("KEEP", 0), ("REPLACE_x", 1)] KEEP = some 0 ∧
    ∃ labels, encode_labels [none, some 0, some 0, some 1] ["REPLACE_x"]
        [("KEEP", 0), ("REPLACE_x", 1)] = some labels ∧
      labels.length = 4 ∧
      (∀ idx, idx < 4 →
        ([none, some 0, some 0, some 1].getD idx none = none →
          labels.getD idx 0 = -100) ∧
        (∀ w, [none, some 0, some 0, some 1].getD idx none = some w →
          (¬(idx = 0 ∨ [none, some 0, some 0, some 1].getD (idx - 1) none ≠ some w) →
            labels.getD idx 0 = -100) ∧
          ((idx = 0 ∨ [none, some 0, some 0, some 1].getD (idx - 1) none ≠ some w) →
            labels.getD idx 0 =
              (((assocLookup [("KEEP", 0), ("REPLACE_x", 1)]
                (tagAt ["REPLACE_x"] w)).getD 0 : Nat) : Int) ∧
            0 ≤ labels.getD idx 0 ∧
            ((["REPLACE_x"] : List String).length ≤ w →
              labels.getD idx 0 = (0 : Int)) ∧
            (assocLookup [("KEEP", 0), ("REPLACE_x", 1)]
                (tagAt ["REPLACE_x"] w) = none →
              labels.getD idx 0 = (0 : Int))))) ∧
      (∀ w s k, 1 ≤ k → s + k ≤ 4 →
        (∀ idx, idx < 4 →
          ([none, some 0, some 0, some 1].getD idx none = some w ↔
            s ≤ idx ∧ idx < s + k)) →
        ∀ idx, s ≤ idx → idx < s + k →
          (labels.getD idx 0 ≠ -100 ↔ idx = s)) := by
  refine ⟨by decide, ?_⟩
  exact encode_labels_spec [none, some 0, some 0, some 1] ["REPLACE_x"]
    [("KEEP", 0), ("REPLACE_x", 1)] 0 (by decide)

/-! ## Bounds for find_longest_match -/

theorem innerJs_subset (blo bhi : Nat) :
    ∀ l j, j ∈ innerJs blo bhi l → blo ≤ j ∧ j < bhi ∧ j ∈ l := by
  intro l
  induction l with
  | nil => intro j h; simp [innerJs] at h
  | cons x rest ih =>
    intro j h
    rw [innerJs] at h
    by_cases h1 : x < blo
    · rw [if_pos h1] at h
      rcases ih j h with ⟨h2, h3, h4⟩
      exact ⟨h2, h3, List.mem_cons_of_mem x h4⟩
    · rw [if_neg h1] at h
      by_cases h2 : bhi ≤ x
      · rw [if_pos h2] at h; simp at h
      · rw [if_neg h2] at h
        rcases List.mem_cons.mp h with rfl | h3
        · exact ⟨Nat.le_of_not_lt h1, Nat.lt_of_not_le h2,
            List.mem_cons_self j rest⟩
        · rcases ih j h3 with ⟨h4, h5, h6⟩
          exact ⟨h4, h5, List.mem_cons_of_mem x h6⟩

/-- The shape invariant carried by the best triple of the chain loop:
    either still the initial value, or a nonempty in-range match triple. -/
def bestInv (alo ahi blo bhi : Nat) (best : Nat × Nat × Nat) : Prop :=
  best = (alo, blo, 0) ∨
    (1 ≤ best.2.2 ∧ alo ≤ best.1 ∧ blo ≤ best.2.1 ∧
     best.1 + best.2.2 ≤ ahi ∧ best.2.1 + best.2.2 ≤ bhi)

/-- The shape invariant of a j2len dict before processing row i. -/
def dictInv (alo blo bhi i : Nat) (d : Nat → Nat) : Prop :=
  ∀ x, d x ≠ 0 → blo ≤ x ∧ x < bhi ∧ d x + alo ≤ i ∧ d x + blo ≤ x + 1

theorem innerLoop_inv (alo ahi blo bhi i : Nat) (old : Nat → Nat)
    (hi1 : alo ≤ i) (hi2 : i < ahi) (hold : dictInv alo blo bhi i old) :
    ∀ js (new : Nat → Nat) best,
      (∀ j ∈ js, blo ≤ j ∧ j < bhi) →
      dictInv alo blo bhi (i + 1) new →
      bestInv alo ahi blo bhi best →
      dictInv alo blo bhi (i + 1) (innerLoop i old js new best).1 ∧
      bestInv alo ahi blo bhi (innerLoop i old js new best).2 := by
  intro js
  induction js with
  | nil => intro new best _ hnew hbest; exact ⟨hnew, hbest⟩
  | cons j rest ih =>
    intro new best hjs hnew hbest
    obtain ⟨hjb, hjh⟩ := hjs j (List.mem_cons_self j rest)
    have hk1 : ((if j = 0 then 0 else old (j - 1)) + 1) + alo ≤ i + 1 ∧
        ((if j = 0 then 0 else old (j - 1)) + 1) + blo ≤ j + 1 := by
      by_cases hj0 : j = 0
      · rw [if_pos hj0]
        omega
      · rw [if_neg hj0]
        by_cases holdz : old (j - 1) = 0
        · rw [holdz]; omega
        · rcases hold (j - 1) holdz with ⟨hb1, hb2, hb3, hb4⟩
          omega
    rw [innerLoop]
    refine ih _ _ (fun x hx => hjs x (List.mem_cons_of_mem j hx)) ?_ ?_
    · intro x hx
      by_cases hxj : x = j
      · have hval : (fun y => if y = j then
            (if j = 0 then 0 else old (j - 1)) + 1 else new y) x =
            (if j = 0 then 0 else old (j - 1)) + 1 := by simp [hxj]
        rw [hval]
        rw [hxj]
        exact ⟨hjb, hjh, by omega, by omega⟩
      · have hval : (fun y => if y = j then
            (if j = 0 then 0 else old (j - 1)) + 1 else new y) x = new x := by
          simp [hxj]
        rw [hval] at hx ⊢
        exact hnew x hx
    · by_cases hb : best.2.2 < (if j = 0 then 0 else old (j - 1)) + 1
      · rw [if_pos hb]
        right
        refine ⟨?_, ?_, ?_, ?_, ?_⟩
        · show 1 ≤ (if j = 0 then 0 else old (j - 1)) + 1
          omega
        · show alo ≤ i + 1 - ((if j = 0 then 0 else old (j - 1)) + 1)
          omega
        · show blo ≤ j + 1 - ((if j = 0 then 0 else old (j - 1)) + 1)
          omega
        · show i + 1 - ((if j = 0 then 0 else old (j - 1)) + 1) +
            ((if j = 0 then 0 else old (j - 1)) + 1) ≤ ahi
          omega
        · show j + 1 - ((if j = 0 then 0 else old (j - 1)) + 1) +
            ((if j = 0 then 0 else old (j - 1)) + 1) ≤ bhi
          omega
      · rw [if_neg hb]
        exact hbest

theorem flmLoop_inv (a b : List Token) (alo ahi blo bhi : Nat) :
    ∀ (m i0 : Nat) (dict : Nat → Nat) best,
      alo ≤ i0 → i0 + m ≤ ahi →
      dictInv alo blo bhi i0 dict →
      bestInv alo ahi blo bhi best →
      bestInv alo ahi blo bhi
        (flmLoop a b blo bhi (List.range' i0 m) dict best).2 := by
  intro m
  induction m with
  | zero => intro i0 dict best _ _ _ hbest; exact hbest
  | succ m ih =>
    intro i0 dict best h1 h2 hdict hbest
    rw [List.range'_succ, flmLoop]
    have hjs : ∀ j ∈ innerJs blo bhi (b2j b (a.getD i0 "")),
        blo ≤ j ∧ j < bhi := by
      intro j hj
      rcases innerJs_subset blo bhi _ j hj with ⟨hj1, hj2, _⟩
      exact ⟨hj1, hj2⟩
    have hzero : dictInv alo blo bhi (i0 + 1) (fun _ => 0) := by
      intro x hx; simp at hx
    have hdict' : dictInv alo blo bhi i0 dict := hdict
    rcases innerLoop_inv alo ahi blo bhi i0 dict h1 (by omega) hdict' _
      (fun _ => 0) best hjs hzero hbest with ⟨hd, hb⟩
    have hd' : dictInv alo blo bhi (i0 + 1)
        (innerLoop i0 dict (innerJs blo bhi (b2j b (a.getD i0 "")))
          (fun _ => 0) best).1 := hd
    exact ih (i0 + 1) _ _ (by omega) (by omega) hd' hb

theorem extendBack_spec (a b : List Token) (alo blo : Nat) :
    ∀ besti bestj bestsize,
      alo ≤ besti → blo ≤ bestj →
      alo ≤ (extendBack a b alo blo besti bestj bestsize).1 ∧
      blo ≤ (extendBack a b alo blo besti bestj bestsize).2.1 ∧
      (extendBack a b alo blo besti bestj bestsize).1 +
        (extendBack a b alo blo besti bestj bestsize).2.2 =
        besti + bestsize ∧
      (extendBack a b alo blo besti bestj bestsize).2.1 +
        (extendBack a b alo blo besti bestj bestsize).2.2 =
        bestj + bestsize ∧
      bestsize ≤ (extendBack a b alo blo besti bestj bestsize).2.2 := by
  intro besti
  induction besti with
  | zero =>
    intro bestj bestsize h1 h2
    exact ⟨h1, h2, rfl, rfl, le_rfl⟩
  | succ n ih =>
    intro bestj bestsize h1 h2
    rw [extendBack]
    by_cases hc : alo < n + 1 ∧ blo < bestj ∧
        a.getD n "" = b.getD (bestj - 1) ""
    · rw [if_pos hc]
      obtain ⟨e1, e2, e3, e4, e5⟩ := ih (bestj - 1) (bestsize + 1)
        (by omega) (by omega)
      refine ⟨e1, e2, by omega, by omega, by omega⟩
    · rw [if_neg hc]
      exact ⟨h1, h2, rfl, rfl, le_rfl⟩

theorem extendFwdGo_spec (a b : List Token) (bhi besti bestj : Nat) :
    ∀ fuel s,
      s ≤ extendFwdGo a b bhi besti bestj fuel s ∧
      extendFwdGo a b bhi besti bestj fuel s ≤ s + fuel ∧
      (extendFwdGo a b bhi besti bestj fuel s ≠ s →
        bestj + extendFwdGo a b bhi besti bestj fuel s ≤ bhi) ∧
      (bestj + s ≤ bhi →
        bestj + extendFwdGo a b bhi besti bestj fuel s ≤ bhi) := by
  intro fuel
  induction fuel with
  | zero =>
    intro s
    simp only [extendFwdGo]
    exact ⟨le_rfl, by omega, fun h => absurd rfl h, fun h => h⟩
  | succ n ih =>
    intro s
    rw [extendFwdGo]
    by_cases hc : bestj + s < bhi ∧ a.getD (besti + s) "" = b.getD (bestj + s) ""
    · rw [if_pos hc]
      obtain ⟨t1, t2, t3, t4⟩ := ih (s + 1)
      exact ⟨by omega, by omega, fun _ => t4 (by omega), fun _ => t4 (by omega)⟩
    · rw [if_neg hc]
      exact ⟨le_rfl, by omega, fun h => absurd rfl h, fun h => h⟩

theorem extendBack_stop (a b : List Token) (alo blo bestj bestsize : Nat) :
    extendBack a b alo blo alo bestj bestsize = (alo, bestj, bestsize) := by
  cases alo with
  | zero => rfl
  | succ n =>
    rw [extendBack]
    have hno : ¬(n + 1 < n + 1 ∧ blo < bestj ∧
        a.getD n "" = b.getD (bestj - 1) "") := by
      intro h; omega
    rw [if_neg hno]

/-- findLongestMatch with its lets unfolded. -/
theorem findLongestMatch_eq (a b : List Token) (alo ahi blo bhi : Nat) :
    findLongestMatch a b alo ahi blo bhi =
      ((extendBack a b alo blo
          (flmLoop a b blo bhi (List.range' alo (ahi - alo))
            (fun _ => 0) (alo, blo, 0)).2.1
          (flmLoop a b blo bhi (List.range' alo (ahi - alo))
            (fun _ => 0) (alo, blo, 0)).2.2.1
          (flmLoop a b blo bhi (List.range' alo (ahi - alo))
            (fun _ => 0) (alo, blo, 0)).2.2.2).1,
       (extendBack a b alo blo
          (flmLoop a b blo bhi (List.range' alo (ahi - alo))
            (fun _ => 0) (alo, blo, 0)).2.1
          (flmLoop a b blo bhi (List.range' alo (ahi - alo))
            (fun _ => 0) (alo, blo, 0)).2.2.1
          (flmLoop a b blo bhi (List.range' alo (ahi - alo))
            (fun _ => 0) (alo, blo, 0)).2.2.2).2.1,
       extendFwdGo a b bhi
         (extendBack a b alo blo
            (flmLoop a b blo bhi (List.range' alo (ahi - alo))
              (fun _ => 0) (alo, blo, 0)).2.1
            (flmLoop a b blo bhi (List.range' alo (ahi - alo))
              (fun _ => 0) (alo, blo, 0)).2.2.1
            (flmLoop a b blo bhi (List.range' alo (ahi - alo))
              (fun _ => 0) (alo, blo, 0)).2.2.2).1
         (extendBack a b alo blo
            (flmLoop a b blo bhi (List.range' alo (ahi - alo))
              (fun _ => 0) (alo, blo, 0)).2.1
            (flmLoop a b blo bhi (List.range' alo (ahi - alo))
              (fun _ => 0) (alo, blo, 0)).2.2.1
            (flmLoop a b blo bhi (List.range' alo (ahi - alo))
              (fun _ => 0) (alo, blo, 0)).2.2.2).2.1
         (ahi -
           ((extendBack a b alo blo
              (flmLoop a b blo bhi (List.range' alo (ahi - alo))
                (fun _ => 0) (alo, blo, 0)).2.1
              (flmLoop a b blo bhi (List.range' alo (ahi - alo))
                (fun _ => 0) (alo, blo, 0)).2.2.1
              (flmLoop a b blo bhi (List.range' alo (ahi - alo))
                (fun _ => 0) (alo, blo, 0)).2.2.2).1 +
            (extendBack a b alo blo
              (flmLoop a b blo bhi (List.range' alo (ahi - alo))
                (fun _ => 0) (alo, blo, 0)).2.1
              (flmLoop a b blo bhi (List.range' alo (ahi - alo))
                (fun _ => 0) (alo, blo, 0)).2.2.1
              (flmLoop a b blo bhi (List.range' alo (ahi - alo))
                (fun _ => 0) (alo, blo, 0)).2.2.2).2.2))
         (extendBack a b alo blo
            (flmLoop a b blo bhi (List.range' alo (ahi - alo))
              (fun _ => 0) (alo, blo, 0)).2.1
            (flmLoop a b blo bhi (List.range' alo (ahi - alo))
              (fun _ => 0) (alo, blo, 0)).2.2.1
            (flmLoop a b blo bhi (List.range' alo (ahi - alo))
              (fun _ => 0) (alo, blo, 0)).2.2.2).2.2) := rfl

/-- The extension phase of find_longest_match keeps an in-range match
    in range, stated in scalar form. -/
theorem flmPost (a b : List Token) (alo ahi blo bhi bi bj bk : Nat)
    (hbest : bestInv alo ahi blo bhi (bi, bj, bk)) (r : Nat)
    (hr : r = extendFwdGo a b bhi (extendBack a b alo blo bi bj bk).1
        (extendBack a b alo blo bi bj bk).2.1
        (ahi - ((extendBack a b alo blo bi bj bk).1 +
          (extendBack a b alo blo bi bj bk).2.2))
        (extendBack a b alo blo bi bj bk).2.2)
    (hk : r ≠ 0) :
    alo ≤ (extendBack a b alo blo bi bj bk).1 ∧
    (extendBack a b alo blo bi bj bk).1 + r ≤ ahi ∧
    blo ≤ (extendBack a b alo blo bi bj bk).2.1 ∧
    (extendBack a b alo blo bi bj bk).2.1 + r ≤ bhi := by
  rcases hbest with heq | ⟨h1, h2, h3, h4, h5⟩
  · have hbi : bi = alo := congrArg Prod.fst heq
    have hbj : bj = blo := congrArg (fun p => p.2.1) heq
    have hbk : bk = 0 := congrArg (fun p => p.2.2) heq
    rw [hbi, hbj, hbk] at hr ⊢
    rw [extendBack_stop] at hr ⊢
    simp only at hr ⊢
    obtain ⟨t1, t2, t3, t4⟩ := extendFwdGo_spec a b bhi alo blo
      (ahi - (alo + 0)) 0
    rw [← hr] at t1 t2 t3 t4
    refine ⟨le_rfl, by omega, le_rfl, t3 (by omega)⟩
  · simp only at h1 h2 h3 h4 h5
    obtain ⟨e1, e2, e3, e4, e5⟩ := extendBack_spec a b alo blo bi bj bk h2 h3
    obtain ⟨t1, t2, t3, t4⟩ := extendFwdGo_spec a b bhi
      (extendBack a b alo blo bi bj bk).1
      (extendBack a b alo blo bi bj bk).2.1
      (ahi - ((extendBack a b alo blo bi bj bk).1 +
        (extendBack a b alo blo bi bj bk).2.2))
      (extendBack a b alo blo bi bj bk).2.2
    rw [← hr] at t1 t2 t3 t4
    refine ⟨e1, by omega, e2, t4 (by omega)⟩

theorem findLongestMatch_bounds (a b : List Token) (alo ahi blo bhi : Nat)
    (hk : (findLongestMatch a b alo ahi blo bhi).2.2 ≠ 0) :
    alo ≤ (findLongestMatch a b alo ahi blo bhi).1 ∧
    (findLongestMatch a b alo ahi blo bhi).1 +
      (findLongestMatch a b alo ahi blo bhi).2.2 ≤ ahi ∧
    blo ≤ (findLongestMatch a b alo ahi blo bhi).2.1 ∧
    (findLongestMatch a b alo ahi blo bhi).2.1 +
      (findLongestMatch a b alo ahi blo bhi).2.2 ≤ bhi := by
  have hbest : bestInv alo ahi blo bhi
      ((flmLoop a b blo bhi (List.range' alo (ahi - alo))
        (fun _ => 0) (alo, blo, 0)).2) := by
    rcases le_or_lt alo ahi with hle | hlt
    · exact flmLoop_inv a b alo ahi blo bhi (ahi - alo) alo
        (fun _ => 0) (alo, blo, 0) le_rfl (by omega)
        (fun x hx => by simp at hx) (Or.inl rfl)
    · have hz : ahi - alo = 0 := by omega
      rw [hz]
      exact Or.inl rfl
  rw [findLongestMatch_eq] at hk ⊢
  simp only at hk ⊢
  have hbest2 : bestInv alo ahi blo bhi
      ((flmLoop a b blo bhi (List.range' alo (ahi - alo))
          (fun _ => 0) (alo, blo, 0)).2.1,
       (flmLoop a b blo bhi (List.range' alo (ahi - alo))
          (fun _ => 0) (alo, blo, 0)).2.2.1,
       (flmLoop a b blo bhi (List.range' alo (ahi - alo))
          (fun _ => 0) (alo, blo, 0)).2.2.2) := hbest
  exact flmPost a b alo ahi blo bhi _ _ _ hbest2 _ rfl hk

/-! ## Well-formedness of the matching-block list -/

theorem blocksWFE_cursor_le (A B : Nat) :
    ∀ bs i j, blocksWFE A B i j bs → i ≤ A ∧ j ≤ B := by
  intro bs
  induction bs with
  | nil => intro i j h; exact h
  | cons blk rest ih =>
    obtain ⟨ai, bj, k⟩ := blk
    intro i j h
    obtain ⟨h1, h2, h3, h4, h5, h6⟩ := h
    exact ⟨by omega, by omega⟩

theorem blocksWFE_mono_cursor (A B : Nat) (bs : List (Nat × Nat × Nat))
    (i j i' j' : Nat) (h : blocksWFE A B i' j' bs) (hi : i ≤ i')
    (hj : j ≤ j') : blocksWFE A B i j bs := by
  cases bs with
  | nil => exact ⟨le_trans hi h.1, le_trans hj h.2⟩
  | cons blk rest =>
    obtain ⟨ai, bj, k⟩ := blk
    obtain ⟨h1, h2, h3, h4, h5, h6⟩ := h
    exact ⟨by omega, by omega, h3, h4, h5, h6⟩

theorem blocksWFE_append (A B I J : Nat) :
    ∀ bs i j, blocksWFE I J i j bs → I ≤ A → J ≤ B →
      ∀ ys, blocksWFE A B I J ys → blocksWFE A B i j (bs ++ ys) := by
  intro bs
  induction bs with
  | nil =>
    intro i j h hIA hJB ys hys
    exact blocksWFE_mono_cursor A B ys i j I J hys h.1 h.2
  | cons blk rest ih =>
    obtain ⟨ai, bj, k⟩ := blk
    intro i j h hIA hJB ys hys
    obtain ⟨h1, h2, h3, h4, h5, h6⟩ := h
    exact ⟨h1, h2, h3, by omega, by omega,
      ih (ai + k) (bj + k) h6 hIA hJB ys hys⟩

theorem blocksWFE_ks (A B : Nat) :
    ∀ bs i j, blocksWFE A B i j bs → ∀ blk ∈ bs, 1 ≤ blk.2.2 := by
  intro bs
  induction bs with
  | nil => intro i j _ blk hblk; simp at hblk
  | cons hd rest ih =>
    obtain ⟨ai, bj, k⟩ := hd
    intro i j h blk hblk
    obtain ⟨h1, h2, h3, h4, h5, h6⟩ := h
    rcases List.mem_cons.mp hblk with rfl | hmem
    · exact h3
    · exact ih (ai + k) (bj + k) h6 blk hmem

theorem blocksWFE_head_lb (A B : Nat) :
    ∀ bs i j, blocksWFE A B i j bs → ∀ blk ∈ bs, i ≤ blk.1 ∧ j ≤ blk.2.1 := by
  intro bs
  induction bs with
  | nil => intro i j _ blk hblk; simp at hblk
  | cons hd rest ih =>
    obtain ⟨ai, bj, k⟩ := hd
    intro i j h blk hblk
    obtain ⟨h1, h2, h3, h4, h5, h6⟩ := h
    rcases List.mem_cons.mp hblk with rfl | hmem
    · exact ⟨h1, h2⟩
    · have := ih (ai + k) (bj + k) h6 blk hmem
      exact ⟨by omega, by omega⟩

/-- matchingBlocksFuel's successor-step unfolding. -/
theorem matchingBlocksFuel_succ (a b : List Token)
    (fuel alo ahi blo bhi : Nat) :
    matchingBlocksFuel a b (fuel + 1) alo ahi blo bhi =
      if (findLongestMatch a b alo ahi blo bhi).2.2 = 0 then []
      else
        (if alo < (findLongestMatch a b alo ahi blo bhi).1 ∧
            blo < (findLongestMatch a b alo ahi blo bhi).2.1 then
          matchingBlocksFuel a b fuel alo
            (findLongestMatch a b alo ahi blo bhi).1 blo
            (findLongestMatch a b alo ahi blo bhi).2.1
        else []) ++
        findLongestMatch a b alo ahi blo bhi ::
        (if (findLongestMatch a b alo ahi blo bhi).1 +
              (findLongestMatch a b alo ahi blo bhi).2.2 < ahi ∧
            (findLongestMatch a b alo ahi blo bhi).2.1 +
              (findLongestMatch a b alo ahi blo bhi).2.2 < bhi then
          matchingBlocksFuel a b fuel
            ((findLongestMatch a b alo ahi blo bhi).1 +
              (findLongestMatch a b alo ahi blo bhi).2.2) ahi
            ((findLongestMatch a b alo ahi blo bhi).2.1 +
              (findLongestMatch a b alo ahi blo bhi).2.2) bhi
        else []) := rfl

theorem matchingBlocksFuel_wf (a b : List Token) :
    ∀ fuel alo ahi blo bhi, alo ≤ ahi → blo ≤ bhi →
      blocksWFE ahi bhi alo blo
        (matchingBlocksFuel a b fuel alo ahi blo bhi) := by
  intro fuel
  induction fuel with
  | zero => intro alo ahi blo bhi h1 h2; exact ⟨h1, h2⟩
  | succ fuel ih =>
    intro alo ahi blo bhi h1 h2
    rw [matchingBlocksFuel_succ]
    by_cases hk0 : (findLongestMatch a b alo ahi blo bhi).2.2 = 0
    · rw [if_pos hk0]; exact ⟨h1, h2⟩
    · rw [if_neg hk0]
      obtain ⟨g1, g2, g3, g4⟩ := findLongestMatch_bounds a b alo ahi blo bhi hk0
      have hk1 : 1 ≤ (findLongestMatch a b alo ahi blo bhi).2.2 :=
        Nat.one_le_iff_ne_zero.mpr hk0
      generalize hm : findLongestMatch a b alo ahi blo bhi = m
        at g1 g2 g3 g4 hk1 ⊢
      obtain ⟨mi, mj, mk⟩ := m
      simp only at g1 g2 g3 g4 hk1
      have hmr : blocksWFE ahi bhi mi mj ((mi, mj, mk) ::
          (if mi + mk < ahi ∧ mj + mk < bhi then
            matchingBlocksFuel a b fuel (mi + mk) ahi (mj + mk) bhi
          else [])) := by
        refine ⟨le_rfl, le_rfl, hk1, g2, g4, ?_⟩
        by_cases hrg : mi + mk < ahi ∧ mj + mk < bhi
        · rw [if_pos hrg]
          exact ih (mi + mk) ahi (mj + mk) bhi (by omega) (by omega)
        · rw [if_neg hrg]
          exact ⟨g2, g4⟩
      by_cases hlg : alo < mi ∧ blo < mj
      · rw [if_pos hlg]
        refine blocksWFE_append ahi bhi mi mj _ alo blo
          (ih alo mi blo mj (by omega) (by omega)) (by omega) (by omega) _ hmr
      · rw [if_neg hlg]
        rw [List.nil_append]
        exact blocksWFE_mono_cursor ahi bhi _ alo blo mi mj hmr g1 g3

/-! ## matching_blocks.sort() is the identity on the collected blocks -/

theorem sortBlocks_of_pairwise :
    ∀ l : List (Nat × Nat × Nat),
      l.Pairwise (fun u v => blockLe u v = true) → sortBlocks l = l := by
  intro l
  induction l with
  | nil => intro _; rfl
  | cons x rest ih =>
    intro hp
    obtain ⟨hx, hrest⟩ := List.pairwise_cons.mp hp
    rw [sortBlocks, ih hrest]
    cases rest with
    | nil => rfl
    | cons y rest2 =>
      rw [insertBlock, if_pos (hx y (List.mem_cons_self y rest2))]

theorem blocksWFE_pairwise (A B : Nat) :
    ∀ bs i j, blocksWFE A B i j bs →
      bs.Pairwise (fun u v => blockLe u v = true) := by
  intro bs
  induction bs with
  | nil => intro i j _; exact List.Pairwise.nil
  | cons hd rest ih =>
    obtain ⟨ai, bj, k⟩ := hd
    intro i j h
    obtain ⟨h1, h2, h3, h4, h5, h6⟩ := h
    refine List.pairwise_cons.mpr ⟨?_, ih (ai + k) (bj + k) h6⟩
    intro v hv
    have hlb := blocksWFE_head_lb A B rest (ai + k) (bj + k) h6 v hv
    simp only [blockLe, decide_eq_true_eq]
    left
    show ai < v.1
    omega

/-! ## Collapse preserves well-formedness -/

theorem collapseBlocks_wf (A B : Nat) :
    ∀ bs i1 j1 k1, blocksWFE A B (i1 + k1) (j1 + k1) bs →
      blocksWFE A B i1 j1 (collapseBlocks (i1, j1, k1) bs) := by
  intro bs
  induction bs with
  | nil =>
    intro i1 j1 k1 h
    obtain ⟨ha, hb⟩ := h
    rw [collapseBlocks]
    by_cases hk : k1 ≠ 0
    · simp only [if_pos hk]
      exact ⟨le_rfl, le_rfl, by omega, by omega, by omega, by omega, by omega⟩
    · simp only [if_neg hk]
      exact ⟨by omega, by omega⟩
  | cons hd rest ih =>
    obtain ⟨i2, j2, k2⟩ := hd
    intro i1 j1 k1 h
    obtain ⟨h1, h2, h3, h4, h5, h6⟩ := h
    rw [collapseBlocks]
    by_cases hadj : i1 + k1 = i2 ∧ j1 + k1 = j2
    · simp only [if_pos hadj]
      refine ih i1 j1 (k1 + k2) ?_
      have e1 : i1 + (k1 + k2) = i2 + k2 := by omega
      have e2 : j1 + (k1 + k2) = j2 + k2 := by omega
      rw [e1, e2]
      exact h6
    · simp only [if_neg hadj]
      have hc := ih i2 j2 k2 h6
      by_cases hk : k1 ≠ 0
      · simp only [if_pos hk, List.cons_append, List.nil_append]
        refine ⟨le_rfl, le_rfl, by omega, by omega, by omega, ?_⟩
        exact blocksWFE_mono_cursor A B _ (i1 + k1) (j1 + k1) i2 j2 hc h1 h2
      · simp only [if_neg hk, List.nil_append]
        exact blocksWFE_mono_cursor A B _ i1 j1 i2 j2 hc (by omega) (by omega)

/-! ## get_opcodes emits a well-formed opcode chain -/

theorem opcodesLoop_wf (n m : Nat) :
    ∀ bs i j, blocksWFE n m i j bs →
      opsWF n m i j (opcodesLoop i j (bs ++ [(n, m, 0)])) := by
  intro bs
  induction bs with
  | nil =>
    intro i j h
    obtain ⟨hi, hj⟩ := h
    rw [List.nil_append, opcodesLoop]
    have hz : ¬((0 : Nat) ≠ 0) := by omega
    rw [if_neg hz]
    rw [opcodesLoop]
    simp only [List.append_nil]
    by_cases h1 : i < n ∧ j < m
    · rw [if_pos h1]
      exact ⟨rfl, rfl, show i ≤ n by omega, le_rfl, show j ≤ m by omega,
        le_rfl, Or.inr (Or.inr (Or.inr ⟨rfl, h1.1, h1.2⟩)), rfl, rfl⟩
    · rw [if_neg h1]
      by_cases h2 : i < n
      · rw [if_pos h2]
        have hjm : j = m := by
          rcases Nat.lt_or_ge j m with hc | hc
          · exact absurd ⟨h2, hc⟩ h1
          · omega
        exact ⟨rfl, rfl, show i ≤ n by omega, le_rfl, show j ≤ m by omega,
          le_rfl, Or.inr (Or.inl ⟨rfl, hjm⟩), rfl, rfl⟩
      · rw [if_neg h2]
        by_cases h3 : j < m
        · rw [if_pos h3]
          have him : i = n := by omega
          exact ⟨rfl, rfl, show i ≤ n by omega, le_rfl, show j ≤ m by omega,
            le_rfl, Or.inr (Or.inr (Or.inl ⟨rfl, him, h3⟩)), rfl, rfl⟩
        · rw [if_neg h3]
          exact ⟨by omega, by omega⟩
  | cons hd rest ih =>
    obtain ⟨ai, bj, k⟩ := hd
    intro i j h
    obtain ⟨h1, h2, h3, h4, h5, h6⟩ := h
    rw [List.cons_append, opcodesLoop]
    have hkne : k ≠ 0 := by omega
    rw [if_pos hkne]
    have hrec := ih (ai + k) (bj + k) h6
    have hiam : ai ≤ n ∧ bj ≤ m := by
      have := blocksWFE_cursor_le n m rest (ai + k) (bj + k) h6
      omega
    have hcur := blocksWFE_cursor_le n m rest (ai + k) (bj + k) h6
    have htail : opsWF n m ai bj (⟨"equal", ai, ai + k, bj, bj + k⟩ ::
        opcodesLoop (ai + k) (bj + k) (rest ++ [(n, m, 0)])) :=
      ⟨rfl, rfl, show ai ≤ ai + k by omega, show ai + k ≤ n by omega,
       show bj ≤ bj + k by omega, show bj + k ≤ m by omega,
       Or.inl ⟨rfl, show ai + k - ai = bj + k - bj by omega⟩, hrec⟩
    by_cases g1 : i < ai ∧ j < bj
    · rw [if_pos g1]
      simp only [List.singleton_append]
      exact ⟨rfl, rfl, show i ≤ ai by omega, show ai ≤ n by omega,
        show j ≤ bj by omega, show bj ≤ m by omega,
        Or.inr (Or.inr (Or.inr ⟨rfl, g1.1, g1.2⟩)), htail⟩
    · rw [if_neg g1]
      by_cases g2 : i < ai
      · rw [if_pos g2]
        have hjb : j = bj := by
          rcases Nat.lt_or_ge j bj with hc | hc
          · exact absurd ⟨g2, hc⟩ g1
          · omega
        simp only [List.singleton_append]
        exact ⟨rfl, rfl, show i ≤ ai by omega, show ai ≤ n by omega,
          show j ≤ bj by omega, show bj ≤ m by omega,
          Or.inr (Or.inl ⟨rfl, hjb⟩), htail⟩
      · rw [if_neg g2]
        by_cases g3 : j < bj
        · rw [if_pos g3]
          have hia : i = ai := by omega
          simp only [List.singleton_append]
          exact ⟨rfl, rfl, show i ≤ ai by omega, show ai ≤ n by omega,
            show j ≤ bj by omega, show bj ≤ m by omega,
            Or.inr (Or.inr (Or.inl ⟨rfl, hia, g3⟩)), htail⟩
        · rw [if_neg g3]
          simp only [List.nil_append]
          have hia : i = ai := by omega
          have hjb : j = bj := by omega
          rw [hia, hjb]
          exact htail

theorem noDelIns_cons_of_not_delete (op : Opcode) (l : List Opcode)
    (hop : op.op ≠ "delete") (h : noDelIns l) : noDelIns (op :: l) := by
  cases l with
  | nil => trivial
  | cons b rest => exact ⟨fun hc => hop hc.1, h⟩

theorem noDelIns_cons_of_next_not_insert (op b : Opcode) (l : List Opcode)
    (hb : b.op ≠ "insert") (h : noDelIns (b :: l)) :
    noDelIns (op :: b :: l) :=
  ⟨fun hc => hb hc.2, h⟩

theorem opcodesLoop_noDelIns (n m : Nat) :
    ∀ bs i j, (∀ blk ∈ bs, 1 ≤ blk.2.2) →
      noDelIns (opcodesLoop i j (bs ++ [(n, m, 0)])) := by
  intro bs
  induction bs with
  | nil =>
    intro i j _
    rw [List.nil_append, opcodesLoop]
    have hz : ¬((0 : Nat) ≠ 0) := by omega
    rw [if_neg hz]
    rw [opcodesLoop]
    simp only [List.append_nil]
    by_cases h1 : i < n ∧ j < m
    · rw [if_pos h1]; trivial
    · rw [if_neg h1]
      by_cases h2 : i < n
      · rw [if_pos h2]; trivial
      · rw [if_neg h2]
        by_cases h3 : j < m
        · rw [if_pos h3]; trivial
        · rw [if_neg h3]; trivial
  | cons hd rest ih =>
    obtain ⟨ai, bj, k⟩ := hd
    intro i j hks
    have hk1 : 1 ≤ k := hks (ai, bj, k) (List.mem_cons_self _ rest)
    rw [List.cons_append, opcodesLoop]
    have hkne : k ≠ 0 := by omega
    rw [if_pos hkne]
    have hrec := ih (ai + k) (bj + k)
      (fun blk hblk => hks blk (List.mem_cons_of_mem _ hblk))
    have htail : noDelIns (⟨"equal", ai, ai + k, bj, bj + k⟩ ::
        opcodesLoop (ai + k) (bj + k) (rest ++ [(n, m, 0)])) :=
      noDelIns_cons_of_not_delete _ _ (show ("equal" : String) ≠ "delete" by decide) hrec
    by_cases g1 : i < ai ∧ j < bj
    · rw [if_pos g1]
      simp only [List.singleton_append]
      exact noDelIns_cons_of_next_not_insert _ _ _ (show ("equal" : String) ≠ "insert" by decide) htail
    · rw [if_neg g1]
      by_cases g2 : i < ai
      · rw [if_pos g2]
        simp only [List.singleton_append]
        exact noDelIns_cons_of_next_not_insert _ _ _ (show ("equal" : String) ≠ "insert" by decide) htail
      · rw [if_neg g2]
        by_cases g3 : j < bj
        · rw [if_pos g3]
          simp only [List.singleton_append]
          exact noDelIns_cons_of_next_not_insert _ _ _ (show ("equal" : String) ≠ "insert" by decide) htail
        · rw [if_neg g3]
          simp only [List.nil_append]
          exact htail

/-- The collected, sorted, collapsed matching blocks of a and b are
    well-formed relative to cursors (0, 0). -/
theorem getMatchingBlocks_core_wf (a b : List Token) :
    blocksWFE a.length b.length 0 0
      (collapseBlocks (0, 0, 0)
        (sortBlocks (matchingBlocksFuel a b a.length 0 a.length 0 b.length))) := by
  have hraw := matchingBlocksFuel_wf a b a.length 0 a.length 0 b.length
    (Nat.zero_le _) (Nat.zero_le _)
  have hsort : sortBlocks
      (matchingBlocksFuel a b a.length 0 a.length 0 b.length) =
      matchingBlocksFuel a b a.length 0 a.length 0 b.length :=
    sortBlocks_of_pairwise _
      (blocksWFE_pairwise a.length b.length _ 0 0 hraw)
  rw [hsort]
  have := collapseBlocks_wf a.length b.length
    (matchingBlocksFuel a b a.length 0 a.length 0 b.length) 0 0 0
    (by simpa using hraw)
  exact this

theorem getOpcodes_wf (a b : List Token) :
    opsWF a.length b.length 0 0 (getOpcodes a b) :=
  opcodesLoop_wf a.length b.length _ 0 0 (getMatchingBlocks_core_wf a b)

theorem getOpcodes_noDelIns (a b : List Token) :
    noDelIns (getOpcodes a b) :=
  opcodesLoop_noDelIns a.length b.length _ 0 0
    (blocksWFE_ks a.length b.length _ 0 0 (getMatchingBlocks_core_wf a b))

/-! ## The opcode walk -/

theorem diffWalk_eq_walkNoFuse (orig cor : List Token) :
    ∀ ops tags gaps, noDelIns ops →
      diffWalk orig cor ops tags gaps = walkNoFuse orig cor ops tags gaps := by
  intro ops
  induction ops with
  | nil => intro tags gaps _; rfl
  | cons op rest ih =>
    intro tags gaps hnd
    cases rest with
    | nil => rfl
    | cons next rest2 =>
      obtain ⟨hpair, htail⟩ := hnd
      rw [diffWalk, walkNoFuse]
      have hcond : ¬(op.op = "delete" ∧ next.op = "insert" ∧
          op.i2 - op.i1 = 1 ∧ next.j2 - next.j1 = 1) := by
        intro hc; exact hpair ⟨hc.1, hc.2.1⟩
      rw [if_neg hcond]
      exact ih _ _ htail

theorem pySlice_length (xs : List Token) (l r : Nat) (_h1 : l ≤ r)
    (h2 : r ≤ xs.length) : (pySlice xs l r).length = r - l := by
  simp [pySlice]
  omega

theorem stepNoFuse_tags_length (orig cor : List Token) (op : Opcode)
    (tags gaps : List String) (h3 : op.i1 ≤ op.i2) (h4 : op.i2 ≤ orig.length)
    (hkind : (op.op = "equal" ∧ op.i2 - op.i1 = op.j2 - op.j1) ∨
      (op.op = "delete" ∧ op.j1 = op.j2) ∨
      (op.op = "insert" ∧ op.i1 = op.i2 ∧ op.j1 < op.j2) ∨
      (op.op = "replace" ∧ op.i1 < op.i2 ∧ op.j1 < op.j2)) :
    (stepNoFuse orig cor op tags gaps).1.length =
      tags.length + (op.i2 - op.i1) := by
  rcases hkind with ⟨hop, _⟩ | ⟨hop, _⟩ | ⟨hop, hii, _⟩ | ⟨hop, _, _⟩
  · unfold stepNoFuse
    rw [hop, if_pos rfl]
    simp
  · unfold stepNoFuse
    rw [hop, if_neg (by decide : ¬("delete" : String) = "equal"),
      if_pos rfl]
    simp
  · unfold stepNoFuse
    rw [hop, if_neg (by decide : ¬("insert" : String) = "equal"),
      if_neg (by decide : ¬("insert" : String) = "delete"),
      if_neg (by decide : ¬("insert" : String) = "replace"),
      if_pos rfl]
    simp only
    omega
  · unfold stepNoFuse
    rw [hop, if_neg (by decide : ¬("replace" : String) = "equal"),
      if_neg (by decide : ¬("replace" : String) = "delete"),
      if_pos rfl]
    have hso : (pySlice orig op.i1 op.i2).length = op.i2 - op.i1 :=
      pySlice_length orig op.i1 op.i2 h3 h4
    by_cases hc : (pySlice orig op.i1 op.i2).length =
        (pySlice cor op.j1 op.j2).length
    · rw [if_pos hc]
      simp only [List.length_append, List.length_map]
      omega
    · rw [if_neg hc]
      simp only [List.length_append, List.length_replicate]
      omega

theorem stepNoFuse_gaps (orig cor : List Token) (op : Opcode)
    (tags gaps : List String) (h5 : op.j1 ≤ op.j2) (h6 : op.j2 ≤ cor.length)
    (hkind : (op.op = "equal" ∧ op.i2 - op.i1 = op.j2 - op.j1) ∨
      (op.op = "delete" ∧ op.j1 = op.j2) ∨
      (op.op = "insert" ∧ op.i1 = op.i2 ∧ op.j1 < op.j2) ∨
      (op.op = "replace" ∧ op.i1 < op.i2 ∧ op.j1 < op.j2)) :
    (stepNoFuse orig cor op tags gaps).2.length = gaps.length ∧
    (∀ g ∈ (stepNoFuse orig cor op tags gaps).2, g ∈ gaps ∨ goodGap g) := by
  have hspan : op.j1 < op.j2 → (pySlice cor op.j1 op.j2) ≠ [] := by
    intro hlt
    apply List.ne_nil_of_length_pos
    rw [pySlice_length cor op.j1 op.j2 h5 h6]
    omega
  rcases hkind with ⟨hop, _⟩ | ⟨hop, _⟩ | ⟨hop, hii, hjj⟩ | ⟨hop, hir, hjr⟩
  · unfold stepNoFuse
    rw [hop, if_pos rfl]
    exact ⟨rfl, fun g hg => Or.inl hg⟩
  · unfold stepNoFuse
    rw [hop, if_neg (by decide : ¬("delete" : String) = "equal"), if_pos rfl]
    exact ⟨rfl, fun g hg => Or.inl hg⟩
  · unfold stepNoFuse
    rw [hop, if_neg (by decide : ¬("insert" : String) = "equal"),
      if_neg (by decide : ¬("insert" : String) = "delete"),
      if_neg (by decide : ¬("insert" : String) = "replace"), if_pos rfl]
    refine ⟨List.length_set gaps _ _, fun g hg => ?_⟩
    rcases List.mem_or_eq_of_mem_set hg with hmem | heq
    · exact Or.inl hmem
    · exact Or.inr (Or.inr ⟨pySlice cor op.j1 op.j2, hspan hjj, heq⟩)
  · unfold stepNoFuse
    rw [hop, if_neg (by decide : ¬("replace" : String) = "equal"),
      if_neg (by decide : ¬("replace" : String) = "delete"), if_pos rfl]
    by_cases hc : (pySlice orig op.i1 op.i2).length =
        (pySlice cor op.j1 op.j2).length
    · rw [if_pos hc]
      exact ⟨rfl, fun g hg => Or.inl hg⟩
    · rw [if_neg hc]
      refine ⟨List.length_set gaps _ _, fun g hg => ?_⟩
      rcases List.mem_or_eq_of_mem_set hg with hmem | heq
      · exact Or.inl hmem
      · exact Or.inr (Or.inr ⟨pySlice cor op.j1 op.j2, hspan hjr, heq⟩)

theorem walkNoFuse_tags_length (orig cor : List Token) :
    ∀ ops i j tags gaps, opsWF orig.length cor.length i j ops →
      (walkNoFuse orig cor ops tags gaps).1.length =
        tags.length + (orig.length - i) := by
  intro ops
  induction ops with
  | nil =>
    intro i j tags gaps h
    obtain ⟨hi, _⟩ := h
    rw [walkNoFuse, hi]
    show tags.length = tags.length + (orig.length - orig.length)
    omega
  | cons op rest ih =>
    intro i j tags gaps h
    obtain ⟨h1, h2, h3, h4, h5, h6, hkind, hrest⟩ := h
    rw [walkNoFuse]
    have hstep := stepNoFuse_tags_length orig cor op tags gaps h3 h4 hkind
    rw [ih op.i2 op.j2 _ _ hrest, hstep]
    omega

theorem walkNoFuse_gaps (orig cor : List Token) :
    ∀ ops i j tags gaps, opsWF orig.length cor.length i j ops →
      (walkNoFuse orig cor ops tags gaps).2.length = gaps.length ∧
      (∀ g ∈ (walkNoFuse orig cor ops tags gaps).2, g ∈ gaps ∨ goodGap g) := by
  intro ops
  induction ops with
  | nil =>
    intro i j tags gaps _
    exact ⟨rfl, fun g hg => Or.inl hg⟩
  | cons op rest ih =>
    intro i j tags gaps h
    obtain ⟨h1, h2, h3, h4, h5, h6, hkind, hrest⟩ := h
    rw [walkNoFuse]
    have hstep := stepNoFuse_gaps orig cor op tags gaps h5 h6 hkind
    obtain ⟨ihlen, ihmem⟩ := ih op.i2 op.j2
      (stepNoFuse orig cor op tags gaps).1
      (stepNoFuse orig cor op tags gaps).2 hrest
    refine ⟨by rw [ihlen, hstep.1], fun g hg => ?_⟩
    rcases ihmem g hg with hmem | hgood
    · exact hstep.2 g hmem
    · exact Or.inr hgood

/-! ## Claim C1: one tag per original token -/

/-- Claim C1: for every pair of token sequences the tag sequence has
    exactly one tag per original token; the assertion in diff_to_tags
    never fires. -/
theorem diff_to_tags_tags_length (orig corr : List Token) :
    (diff_to_tags orig corr).tags.length = orig.length := by
  show (diffWalk orig corr (getOpcodes orig corr) []
    (List.replicate (orig.length + 1) "KEEP_GAP")).1.length = orig.length
  rw [diffWalk_eq_walkNoFuse orig corr _ _ _ (getOpcodes_noDelIns orig corr)]
  rw [walkNoFuse_tags_length orig corr (getOpcodes orig corr) 0 0 _ _
    (getOpcodes_wf orig corr)]
  simp

/-! ## Claim C9: the fusion branch is unreachable -/

/-- Claim C9: the opcode stream never contains a delete opcode followed
    directly by an insert opcode, so diff_to_tags computes the same
    TaggedExample as the variant with the fusion branch removed. -/
theorem fusion_branch_unreachable (orig corr : List Token) :
    diff_to_tags orig corr = diff_to_tagsNoFusion orig corr ∧
    noDelIns (getOpcodes orig corr) := by
  constructor
  · show TaggedExample.mk orig
      (diffWalk orig corr (getOpcodes orig corr) []
        (List.replicate (orig.length + 1) "KEEP_GAP")).1
      (diffWalk orig corr (getOpcodes orig corr) []
        (List.replicate (orig.length + 1) "KEEP_GAP")).2 =
      TaggedExample.mk orig
      (walkNoFuse orig corr (getOpcodes orig corr) []
        (List.replicate (orig.length + 1) "KEEP_GAP")).1
      (walkNoFuse orig corr (getOpcodes orig corr) []
        (List.replicate (orig.length + 1) "KEEP_GAP")).2
    rw [diffWalk_eq_walkNoFuse orig corr _ _ _ (getOpcodes_noDelIns orig corr)]
  · exact getOpcodes_noDelIns orig corr

/-! ## Claim C8: the gap-tag sequence -/

/-- Claim C8: the gap-tag sequence has exactly len(orig)+1 entries, each
    either "KEEP_GAP" or a space-joined nonempty list of INSERT_ words;
    an insert opcode's gap entry is written at the index equal to the
    number of tags emitted so far. -/
theorem diff_to_tags_gap_spec (orig corr : List Token) :
    (diff_to_tags orig corr).gap_tags.length = orig.length + 1 ∧
    (∀ g ∈ (diff_to_tags orig corr).gap_tags, goodGap g) ∧
    (∀ (op : Opcode) (tags gaps : List String), op.op = "insert" →
      (stepNoFuse orig corr op tags gaps).2 = gaps.set tags.length
        (String.intercalate " " ((pySlice corr op.j1 op.j2).map
          (fun t => INSERT ++ t)))) := by
  have hshow : (diff_to_tags orig corr).gap_tags =
      (diffWalk orig corr (getOpcodes orig corr) []
        (List.replicate (orig.length + 1) "KEEP_GAP")).2 := rfl
  rw [hshow, diffWalk_eq_walkNoFuse orig corr _ _ _
    (getOpcodes_noDelIns orig corr)]
  obtain ⟨hlen, hmem⟩ := walkNoFuse_gaps orig corr (getOpcodes orig corr)
    0 0 [] (List.replicate (orig.length + 1) "KEEP_GAP")
    (getOpcodes_wf orig corr)
  refine ⟨by rw [hlen]; simp, fun g hg => ?_, ?_⟩
  · rcases hmem g hg with hmem2 | hgood
    · exact Or.inl (List.eq_of_mem_replicate hmem2)
    · exact hgood
  · intro op tags gaps hop
    unfold stepNoFuse
    rw [hop, if_neg (by decide : ¬("insert" : String) = "equal"),
      if_neg (by decide : ¬("insert" : String) = "delete"),
      if_neg (by decide : ¬("insert" : String) = "replace"), if_pos rfl]

/-- Witness for claim C8's insert-placement clause at a concrete input. -/
theorem diff_to_tags_gap_spec_witness :
    (stepNoFuse ["a"] ["b", "a"] ⟨"insert", 0, 0, 0, 1⟩ ["KEEP"]
      ["KEEP_GAP", "KEEP_GAP"]).2 =
      ["KEEP_GAP", "KEEP_GAP"].set 1
        (String.intercalate " " ((pySlice ["b", "a"] 0 1).map
          (fun t => INSERT ++ t))) :=
  (diff_to_tags_gap_spec ["a"] ["b", "a"]).2.2 ⟨"insert", 0, 0, 0, 1⟩
    ["KEEP"] ["KEEP_GAP", "KEEP_GAP"] rfl

/-! ## The chain structure of find_longest_match -/

theorem b2j_sorted (b : List Token) (t : Token) :
    List.Pairwise (· < ·) (b2j b t) := by
  unfold b2j
  by_cases h : isPopular b t
  · rw [if_pos h]; exact List.Pairwise.nil
  · rw [if_neg h]
    exact List.Pairwise.filter _ (List.pairwise_lt_range b.length)

theorem b2j_mem (b : List Token) (t : Token) (j : Nat) :
    j ∈ b2j b t ↔
      (¬isPopular b t = true ∧ j < b.length ∧ b.getD j "" = t) := by
  unfold b2j
  by_cases h : isPopular b t
  · rw [if_pos h]
    simp [h]
  · rw [if_neg h]
    simp [List.mem_filter, List.mem_range, h]

theorem innerJs_eq_filter (blo bhi : Nat) :
    ∀ l, List.Pairwise (· < ·) l →
      innerJs blo bhi l =
        l.filter (fun j => decide (blo ≤ j) && decide (j < bhi)) := by
  intro l
  induction l with
  | nil => intro _; rfl
  | cons x rest ih =>
    intro hp
    obtain ⟨hx, hrest⟩ := List.pairwise_cons.mp hp
    rw [innerJs]
    by_cases h1 : x < blo
    · rw [if_pos h1, List.filter_cons]
      have hc : (decide (blo ≤ x) && decide (x < bhi)) = false := by
        simp [Nat.not_le.mpr h1]
      rw [hc]
      simp only [Bool.false_eq_true, if_false]
      exact ih hrest
    · rw [if_neg h1]
      by_cases h2 : bhi ≤ x
      · rw [if_pos h2, List.filter_cons]
        have hc : (decide (blo ≤ x) && decide (x < bhi)) = false := by
          simp [Nat.not_lt.mpr h2]
        rw [hc]
        simp only [Bool.false_eq_true, if_false]
        symm
        rw [List.filter_eq_nil_iff]
        intro y hy
        have : x < y := hx y hy
        simp
        intro _
        omega
      · rw [if_neg h2, List.filter_cons]
        have hc : (decide (blo ≤ x) && decide (x < bhi)) = true := by
          simp
          omega
        rw [hc]
        simp only [if_true]
        rw [ih hrest]

theorem innerJs_mem_iff (a b : List Token) (blo bhi i j : Nat) :
    j ∈ innerJs blo bhi (b2j b (a.getD i "")) ↔
      condJ a b blo bhi i j = true := by
  rw [innerJs_eq_filter blo bhi _ (b2j_sorted b (a.getD i ""))]
  simp [List.mem_filter, condJ]
  tauto

theorem condJ_fields (a b : List Token) (blo bhi i j : Nat)
    (h : condJ a b blo bhi i j = true) :
    blo ≤ j ∧ j < bhi ∧ ¬isPopular b (a.getD i "") = true ∧
      j < b.length ∧ b.getD j "" = a.getD i "" := by
  simp only [condJ, Bool.and_eq_true, decide_eq_true_eq] at h
  obtain ⟨⟨h1, h2⟩, h3⟩ := h
  have := (b2j_mem b (a.getD i "") j).mp h3
  exact ⟨h1, h2, this.1, this.2.1, this.2.2⟩

theorem chainF_eq_zero (a b : List Token) (alo blo bhi i j : Nat)
    (h : condJ a b blo bhi i j = false) :
    chainF a b alo blo bhi i j = 0 := by
  cases i with
  | zero => rw [chainF, h]; rfl
  | succ n => rw [chainF, h]; rfl

theorem chainF_pos (a b : List Token) (alo blo bhi i j : Nat)
    (h : condJ a b blo bhi i j = true) :
    1 ≤ chainF a b alo blo bhi i j := by
  cases i with
  | zero => rw [chainF, h]; simp
  | succ n => rw [chainF, h]; simp

theorem chainF_valid (a b : List Token) (alo blo bhi : Nat) :
    ∀ i j, (∀ t, t < chainF a b alo blo bhi i j →
        b.getD (j - t) "" = a.getD (i - t) "") ∧
      chainF a b alo blo bhi i j ≤ i + 1 ∧
      chainF a b alo blo bhi i j ≤ j + 1 := by
  intro i
  induction i with
  | zero =>
    intro j
    by_cases h : condJ a b blo bhi 0 j = true
    · rw [chainF, if_pos h]
      refine ⟨fun t ht => ?_, by omega, by omega⟩
      have ht0 : t = 0 := by omega
      subst ht0
      simpa using (condJ_fields a b blo bhi 0 j h).2.2.2.2
    · rw [chainF, if_neg h]
      exact ⟨fun t ht => absurd ht (by omega), by omega, by omega⟩
  | succ n ih =>
    intro j
    by_cases h : condJ a b blo bhi (n + 1) j = true
    · rw [chainF, if_pos h]
      by_cases hg : alo < n + 1 ∧ 0 < j
      · rw [if_pos hg]
        obtain ⟨iv, ib1, ib2⟩ := ih (j - 1)
        refine ⟨fun t ht => ?_, by omega, by omega⟩
        cases t with
        | zero =>
          simpa using (condJ_fields a b blo bhi (n + 1) j h).2.2.2.2
        | succ t' =>
          have e1 : j - (t' + 1) = (j - 1) - t' := by omega
          have e2 : (n + 1) - (t' + 1) = n - t' := by omega
          rw [e1, e2]
          exact iv t' (by omega)
      · rw [if_neg hg]
        refine ⟨fun t ht => ?_, by omega, by omega⟩
        have ht0 : t = 0 := by omega
        subst ht0
        simpa using (condJ_fields a b blo bhi (n + 1) j h).2.2.2.2
    · rw [chainF, if_neg h]
      exact ⟨fun t ht => absurd ht (by omega), by omega, by omega⟩

/-! ## Diagonal domination under the substitution-only hypothesis -/

theorem condJ_diag_col (a b : List Token) (blo bhi i j : Nat)
    (hsub : substOnly a b) (hia : i < a.length)
    (h : condJ a b blo bhi i j = true) :
    a.getD j "" = b.getD j "" ∧ b.getD j "" = a.getD i "" ∧
    condJ a b blo bhi j j = true := by
  obtain ⟨hlen, H⟩ := hsub
  obtain ⟨hj1, hj2, hpop, hjlen, hbj⟩ := condJ_fields a b blo bhi i j h
  have hmem_ba : b.getD j "" ∈ a := by
    rw [hbj, List.getD_eq_getElem a "" hia]
    exact List.getElem_mem hia
  have hjj : a.getD j "" = b.getD j "" := by
    rcases H j (by omega) with he | ⟨_, hnj⟩
    · exact he
    · exact absurd hmem_ba hnj
  refine ⟨hjj, hbj, ?_⟩
  have hvv : a.getD j "" = a.getD i "" := by rw [hjj, hbj]
  simp only [condJ, Bool.and_eq_true, decide_eq_true_eq]
  refine ⟨⟨hj1, hj2⟩, ?_⟩
  rw [b2j_mem, hvv]
  exact ⟨hpop, hjlen, by rw [hbj]⟩

theorem condJ_diag_row (a b : List Token) (blo bhi i j : Nat)
    (hsub : substOnly a b) (hbhi : bhi ≤ b.length)
    (hia : blo ≤ i) (hib : i < bhi)
    (h : condJ a b blo bhi i j = true) :
    a.getD i "" = b.getD i "" ∧ condJ a b blo bhi i i = true := by
  obtain ⟨hlen, H⟩ := hsub
  obtain ⟨hj1, hj2, hpop, hjlen, hbj⟩ := condJ_fields a b blo bhi i j h
  have hilen : i < a.length := by omega
  have hmem_ab : a.getD i "" ∈ b := by
    rw [← hbj, List.getD_eq_getElem b "" hjlen]
    exact List.getElem_mem hjlen
  have hii : a.getD i "" = b.getD i "" := by
    rcases H i hilen with he | ⟨hni, _⟩
    · exact he
    · exact absurd hmem_ab hni
  refine ⟨hii, ?_⟩
  simp only [condJ, Bool.and_eq_true, decide_eq_true_eq]
  refine ⟨⟨hia, hib⟩, ?_⟩
  rw [b2j_mem]
  exact ⟨hpop, by omega, hii.symm⟩

theorem chainF_le_diag_row (a b : List Token) (alo blo bhi : Nat)
    (hsub : substOnly a b) (hbhi : bhi ≤ b.length) (halo : alo = blo) :
    ∀ i j, blo ≤ i → i < bhi →
      chainF a b alo blo bhi i j ≤ chainF a b alo blo bhi i i := by
  intro i
  induction i with
  | zero =>
    intro j h1 h2
    by_cases hc : condJ a b blo bhi 0 j = true
    · obtain ⟨_, hcii⟩ := condJ_diag_row a b blo bhi 0 j hsub hbhi h1 h2 hc
      calc chainF a b alo blo bhi 0 j ≤ 1 := by
            rw [chainF, if_pos hc]
        _ ≤ chainF a b alo blo bhi 0 0 := chainF_pos a b alo blo bhi 0 0 hcii
    · rw [chainF_eq_zero a b alo blo bhi 0 j (Bool.not_eq_true _ ▸ hc)]
      exact Nat.zero_le _
  | succ n ih =>
    intro j h1 h2
    by_cases hc : condJ a b blo bhi (n + 1) j = true
    · obtain ⟨_, hcii⟩ := condJ_diag_row a b blo bhi (n + 1) j hsub hbhi h1 h2 hc
      rw [chainF, if_pos hc]
      conv_rhs => rw [chainF, if_pos hcii]
      by_cases hg : alo < n + 1 ∧ 0 < j
      · rw [if_pos hg, if_pos ⟨hg.1, by omega⟩]
        simp only [Nat.add_sub_cancel]
        have hrec := ih (j - 1) (by omega) (by omega)
        omega
      · rw [if_neg hg]
        omega
    · rw [chainF_eq_zero a b alo blo bhi (n + 1) j (Bool.not_eq_true _ ▸ hc)]
      exact Nat.zero_le _

theorem chainF_le_diag_col (a b : List Token) (alo blo bhi : Nat)
    (hsub : substOnly a b) (halo : alo = blo) :
    ∀ i j, i < a.length →
      chainF a b alo blo bhi i j ≤ chainF a b alo blo bhi j j := by
  intro i
  induction i with
  | zero =>
    intro j h1
    by_cases hc : condJ a b blo bhi 0 j = true
    · obtain ⟨_, _, hcjj⟩ := condJ_diag_col a b blo bhi 0 j hsub h1 hc
      calc chainF a b alo blo bhi 0 j ≤ 1 := by
            rw [chainF, if_pos hc]
        _ ≤ chainF a b alo blo bhi j j := chainF_pos a b alo blo bhi j j hcjj
    · rw [chainF_eq_zero a b alo blo bhi 0 j (Bool.not_eq_true _ ▸ hc)]
      exact Nat.zero_le _
  | succ n ih =>
    intro j h1
    by_cases hc : condJ a b blo bhi (n + 1) j = true
    · obtain ⟨_, _, hcjj⟩ := condJ_diag_col a b blo bhi (n + 1) j hsub h1 hc
      rw [chainF, if_pos hc]
      by_cases hg : alo < n + 1 ∧ 0 < j
      · cases j with
        | zero => omega
        | succ jj =>
          conv_rhs => rw [chainF, if_pos hcjj]
          by_cases hg2 : alo < jj + 1 ∧ 0 < jj + 1
          · rw [if_pos hg, if_pos hg2]
            have hrec := ih jj (by omega)
            have e1 : jj + 1 - 1 = jj := by omega
            rw [e1]
            omega
          · rw [if_pos hg, if_neg hg2]
            have hjalo : jj + 1 ≤ alo := by omega
            have hz : chainF a b alo blo bhi n (jj + 1 - 1) = 0 := by
              apply chainF_eq_zero
              by_cases hcz : condJ a b blo bhi n (jj + 1 - 1) = true
              · obtain ⟨hx1, _, _⟩ := condJ_fields a b blo bhi n _ hcz
                omega
              · exact Bool.not_eq_true _ ▸ hcz
            rw [hz]
      · rw [if_neg hg]
        have := chainF_pos a b alo blo bhi j j hcjj
        omega
    · rw [chainF_eq_zero a b alo blo bhi (n + 1) j (Bool.not_eq_true _ ▸ hc)]
      exact Nat.zero_le _

/-! ## The j2len dict computes chainF, and the best stays diagonal -/

theorem innerLoop_dict (i : Nat) (old : Nat → Nat) :
    ∀ js (new : Nat → Nat) best x,
      (innerLoop i old js new best).1 x =
        if x ∈ js then (if x = 0 then 0 else old (x - 1)) + 1 else new x := by
  intro js
  induction js with
  | nil =>
    intro new best x
    simp [innerLoop]
  | cons j rest ih =>
    intro new best x
    rw [innerLoop]
    rw [ih]
    by_cases hx : x ∈ rest
    · rw [if_pos hx, if_pos (List.mem_cons_of_mem j hx)]
    · rw [if_neg hx]
      by_cases hxj : x = j
      · subst hxj
        simp
      · rw [if_neg hxj, if_neg (by simp [hxj, hx])]

theorem rowK (a b : List Token) (alo blo bhi i : Nat) (dict : Nat → Nat)
    (hdict : ∀ x, dict x =
      if i = alo then 0 else chainF a b alo blo bhi (i - 1) x)
    (hia : alo ≤ i) (j : Nat) (hcond : condJ a b blo bhi i j = true) :
    (if j = 0 then 0 else dict (j - 1)) + 1 =
      chainF a b alo blo bhi i j := by
  cases i with
  | zero =>
    rw [chainF, if_pos hcond]
    by_cases hj : j = 0
    · rw [if_pos hj]
    · rw [if_neg hj, hdict, if_pos (by omega : (0 : Nat) = alo)]
  | succ n =>
    rw [chainF, if_pos hcond]
    by_cases hi0 : n + 1 = alo
    · rw [if_neg (show ¬(alo < n + 1 ∧ 0 < j) by omega)]
      by_cases hj : j = 0
      · rw [if_pos hj]
      · rw [if_neg hj, hdict, if_pos hi0]
    · have hlt : alo < n + 1 := by omega
      by_cases hj : j = 0
      · rw [if_pos hj, if_neg (show ¬(alo < n + 1 ∧ 0 < j) by omega)]
      · rw [if_neg hj, hdict, if_neg hi0,
          if_pos (show alo < n + 1 ∧ 0 < j by omega)]
        simp only [Nat.add_sub_cancel]

theorem innerLoop_diag (a b : List Token) (alo blo bhi i : Nat)
    (hsub : substOnly a b) (hbhi : bhi ≤ b.length) (halo : alo = blo)
    (hia : alo ≤ i) (hib : i < bhi) (hlen : i < a.length)
    (dict : Nat → Nat)
    (hdict : ∀ x, dict x =
      if i = alo then 0 else chainF a b alo blo bhi (i - 1) x) :
    ∀ js best (new : Nat → Nat),
      List.Pairwise (· < ·) js →
      (∀ j ∈ js, condJ a b blo bhi i j = true) →
      best.1 = best.2.1 →
      (∀ t, t < best.2.2 →
        a.getD (best.1 + t) "" = b.getD (best.1 + t) "") →
      (∀ t, alo ≤ t → t < i →
        chainF a b alo blo bhi t t ≤ best.2.2) →
      (chainF a b alo blo bhi i i ≤ best.2.2 ∨ i ∈ js) →
      (innerLoop i dict js new best).2.1 =
        (innerLoop i dict js new best).2.2.1 ∧
      (∀ t, t < (innerLoop i dict js new best).2.2.2 →
        a.getD ((innerLoop i dict js new best).2.1 + t) "" =
        b.getD ((innerLoop i dict js new best).2.1 + t) "") ∧
      (∀ t, alo ≤ t → t < i + 1 →
        chainF a b alo blo bhi t t ≤ (innerLoop i dict js new best).2.2.2) := by
  intro js
  induction js with
  | nil =>
    intro best new _ _ hdiag hvalid hdom hlast
    rcases hlast with hcii | habs
    · refine ⟨hdiag, hvalid, fun t h1 h2 => ?_⟩
      rcases Nat.lt_or_ge t i with ht | ht
      · exact hdom t h1 ht
      · have : t = i := by omega
        subst this
        exact hcii
    · simp at habs
  | cons j rest ih =>
    intro best new hpw hcond hdiag hvalid hdom hlast
    obtain ⟨hj_lt, hpw_rest⟩ := List.pairwise_cons.mp hpw
    have hcj := hcond j (List.mem_cons_self j rest)
    have hkeq : (if j = 0 then 0 else dict (j - 1)) + 1 =
        chainF a b alo blo bhi i j :=
      rowK a b alo blo bhi i dict hdict hia j hcj
    rw [innerLoop]
    rcases hlast with hcii | hmem
    · -- the running best already dominates the diagonal of row i:
      -- no element of this row can trigger an update
      have hklei : chainF a b alo blo bhi i j ≤
          chainF a b alo blo bhi i i :=
        chainF_le_diag_row a b alo blo bhi hsub hbhi halo i j
          (by omega) hib
      have hnoupd : ¬(best.2.2 < (if j = 0 then 0 else dict (j - 1)) + 1) := by
        rw [hkeq]
        omega
      rw [if_neg hnoupd]
      exact ih best _ hpw_rest
        (fun x hx => hcond x (List.mem_cons_of_mem j hx))
        hdiag hvalid hdom (Or.inl hcii)
    · rcases List.mem_cons.mp hmem with heq | hmem_rest
      · -- j = i: the diagonal element of this row is visited now
        subst heq
        by_cases hupd : best.2.2 < (if i = 0 then 0 else dict (i - 1)) + 1
        · rw [if_pos hupd]
          obtain ⟨hcv, hcb1, hcb2⟩ := chainF_valid a b alo blo bhi i i
          refine ih _ _ hpw_rest
            (fun x hx => hcond x (List.mem_cons_of_mem i hx)) rfl ?_ ?_ ?_
          · intro t ht
            simp only at ht ⊢
            rw [hkeq] at ht ⊢
            have hu := hcv (chainF a b alo blo bhi i i - 1 - t) (by omega)
            have e1 : i - (chainF a b alo blo bhi i i - 1 - t) =
                i + 1 - chainF a b alo blo bhi i i + t := by omega
            rw [e1] at hu
            exact hu.symm
          · intro t h1 h2
            simp only
            rw [hkeq]
            have := hdom t h1 h2
            omega
          · left
            simp only
            rw [hkeq]
        · rw [if_neg hupd]
          rw [hkeq] at hupd
          exact ih best _ hpw_rest
            (fun x hx => hcond x (List.mem_cons_of_mem i hx))
            hdiag hvalid hdom (Or.inl (by omega))
      · -- j comes before i in this row: dominated by its own diagonal
        have hji : j < i := hj_lt i hmem_rest
        have hklej : chainF a b alo blo bhi i j ≤
            chainF a b alo blo bhi j j :=
          chainF_le_diag_col a b alo blo bhi hsub halo i j hlen
        obtain ⟨hcjb, _, _, _, _⟩ := condJ_fields a b blo bhi i j hcj
        have hdomj := hdom j (by omega) hji
        have hnoupd : ¬(best.2.2 <
            (if j = 0 then 0 else dict (j - 1)) + 1) := by
          rw [hkeq]
          omega
        rw [if_neg hnoupd]
        exact ih best _ hpw_rest
          (fun x hx => hcond x (List.mem_cons_of_mem j hx))
          hdiag hvalid hdom (Or.inr hmem_rest)

theorem flmLoop_diag (a b : List Token) (alo bhi : Nat)
    (hsub : substOnly a b) (hbhi : bhi ≤ b.length) :
    ∀ m i0 (dict : Nat → Nat) best,
      alo ≤ i0 → i0 + m ≤ bhi →
      (∀ x, dict x = if i0 = alo then 0
        else chainF a b alo alo bhi (i0 - 1) x) →
      best.1 = best.2.1 →
      (∀ t, t < best.2.2 →
        a.getD (best.1 + t) "" = b.getD (best.1 + t) "") →
      (∀ t, alo ≤ t → t < i0 → chainF a b alo alo bhi t t ≤ best.2.2) →
      (flmLoop a b alo bhi (List.range' i0 m) dict best).2.1 =
        (flmLoop a b alo bhi (List.range' i0 m) dict best).2.2.1 ∧
      (∀ t, t < (flmLoop a b alo bhi (List.range' i0 m) dict best).2.2.2 →
        a.getD ((flmLoop a b alo bhi (List.range' i0 m) dict best).2.1 + t) ""
          = b.getD
            ((flmLoop a b alo bhi (List.range' i0 m) dict best).2.1 + t) "") := by
  intro m
  induction m with
  | zero =>
    intro i0 dict best _ _ _ hdiag hvalid _
    exact ⟨hdiag, hvalid⟩
  | succ m ih =>
    intro i0 dict best h1 h2 hdict hdiag hvalid hdom
    rw [List.range'_succ, flmLoop]
    have hib : i0 < bhi := by omega
    have hlen : i0 < a.length := by
      have := hsub.1
      omega
    have hjs_pw : List.Pairwise (· < ·)
        (innerJs alo bhi (b2j b (a.getD i0 ""))) := by
      rw [innerJs_eq_filter alo bhi _ (b2j_sorted b (a.getD i0 ""))]
      exact List.Pairwise.filter _ (b2j_sorted b (a.getD i0 ""))
    have hjs_cond : ∀ j ∈ innerJs alo bhi (b2j b (a.getD i0 "")),
        condJ a b alo bhi i0 j = true :=
      fun j hj => (innerJs_mem_iff a b alo bhi i0 j).mp hj
    have hlast : chainF a b alo alo bhi i0 i0 ≤ best.2.2 ∨
        i0 ∈ innerJs alo bhi (b2j b (a.getD i0 "")) := by
      by_cases hci : condJ a b alo bhi i0 i0 = true
      · exact Or.inr ((innerJs_mem_iff a b alo bhi i0 i0).mpr hci)
      · left
        rw [chainF_eq_zero a b alo alo bhi i0 i0 (Bool.not_eq_true _ ▸ hci)]
        exact Nat.zero_le _
    obtain ⟨d1, d2, d3⟩ := innerLoop_diag a b alo alo bhi i0 hsub hbhi rfl
      h1 hib hlen dict hdict _ best (fun _ => 0) hjs_pw hjs_cond hdiag
      hvalid hdom hlast
    have hdict' : ∀ x,
        (innerLoop i0 dict (innerJs alo bhi (b2j b (a.getD i0 "")))
          (fun _ => 0) best).1 x =
        if i0 + 1 = alo then 0
        else chainF a b alo alo bhi (i0 + 1 - 1) x := by
      intro x
      rw [if_neg (by omega : ¬(i0 + 1 = alo))]
      simp only [Nat.add_sub_cancel]
      rw [innerLoop_dict]
      by_cases hx : x ∈ innerJs alo bhi (b2j b (a.getD i0 ""))
      · rw [if_pos hx]
        exact rowK a b alo alo bhi i0 dict hdict h1 x (hjs_cond x hx)
      · rw [if_neg hx]
        symm
        apply chainF_eq_zero
        have := (innerJs_mem_iff a b alo bhi i0 x).not.mp hx
        exact Bool.not_eq_true _ ▸ this
    exact ih (i0 + 1) _ _ (by omega) (by omega) hdict' d1 d2 d3

theorem extendBack_diag (a b : List Token) (alo blo : Nat) :
    ∀ besti bestsize,
      (∀ t, t < bestsize → a.getD (besti + t) "" = b.getD (besti + t) "") →
      (extendBack a b alo blo besti besti bestsize).1 =
        (extendBack a b alo blo besti besti bestsize).2.1 ∧
      (∀ t, t < (extendBack a b alo blo besti besti bestsize).2.2 →
        a.getD ((extendBack a b alo blo besti besti bestsize).1 + t) "" =
        b.getD ((extendBack a b alo blo besti besti bestsize).1 + t) "") := by
  intro besti
  induction besti with
  | zero => intro s hv; exact ⟨rfl, hv⟩
  | succ n ih =>
    intro s hv
    rw [extendBack]
    by_cases hc : alo < n + 1 ∧ blo < n + 1 ∧
        a.getD n "" = b.getD (n + 1 - 1) ""
    · rw [if_pos hc]
      apply ih
      intro t ht
      cases t with
      | zero =>
        simpa using hc.2.2
      | succ u =>
        have e : n + (u + 1) = n + 1 + u := by omega
        rw [e]
        exact hv u (by omega)
    · rw [if_neg hc]
      exact ⟨rfl, hv⟩

theorem extendFwdGo_valid (a b : List Token) (bhi besti bestj : Nat) :
    ∀ fuel s,
      (∀ t, t < s → a.getD (besti + t) "" = b.getD (bestj + t) "") →
      ∀ t, t < extendFwdGo a b bhi besti bestj fuel s →
        a.getD (besti + t) "" = b.getD (bestj + t) "" := by
  intro fuel
  induction fuel with
  | zero =>
    intro s hv t ht
    rw [extendFwdGo] at ht
    exact hv t ht
  | succ n ih =>
    intro s hv t ht
    rw [extendFwdGo] at ht
    by_cases hc : bestj + s < bhi ∧
        a.getD (besti + s) "" = b.getD (bestj + s) ""
    · rw [if_pos hc] at ht
      refine ih (s + 1) (fun u hu => ?_) t ht
      rcases Nat.lt_or_ge u s with hus | hus
      · exact hv u hus
      · have : u = s := by omega
        subst this
        exact hc.2
    · rw [if_neg hc] at ht
      exact hv t ht

theorem findLongestMatch_diag (a b : List Token) (alo ahi : Nat)
    (hsub : substOnly a b) (hahi : ahi ≤ b.length) :
    (findLongestMatch a b alo ahi alo ahi).1 =
      (findLongestMatch a b alo ahi alo ahi).2.1 ∧
    (∀ t, t < (findLongestMatch a b alo ahi alo ahi).2.2 →
      a.getD ((findLongestMatch a b alo ahi alo ahi).1 + t) "" =
      b.getD ((findLongestMatch a b alo ahi alo ahi).1 + t) "") := by
  rcases le_or_lt alo ahi with hle | hlt
  · obtain ⟨hdB, hvB⟩ := flmLoop_diag a b alo ahi hsub hahi (ahi - alo) alo
      (fun _ => 0) (alo, alo, 0) le_rfl (by omega)
      (fun x => by rw [if_pos rfl]) rfl
      (fun t ht => absurd (show t < 0 from ht) (by omega))
      (fun t h1 h2 => absurd (show t < alo from h2) (by omega))
    rw [findLongestMatch_eq]
    simp only at hdB hvB ⊢
    rw [← hdB]
    obtain ⟨ebd, ebv⟩ := extendBack_diag a b alo alo
      (flmLoop a b alo ahi (List.range' alo (ahi - alo))
        (fun _ => 0) (alo, alo, 0)).2.1
      (flmLoop a b alo ahi (List.range' alo (ahi - alo))
        (fun _ => 0) (alo, alo, 0)).2.2.2 hvB
    refine ⟨ebd, ?_⟩
    intro t ht
    rw [← ebd] at ht
    exact extendFwdGo_valid a b ahi _ _ _ _ (fun u hu => ebv u hu) t ht
  · have hflm : findLongestMatch a b alo ahi alo ahi = (alo, alo, 0) := by
      rw [findLongestMatch_eq]
      rw [show ahi - alo = 0 from by omega]
      simp only [List.range']
      rw [flmLoop]
      simp only
      rw [extendBack_stop]
      simp only
      rw [show ahi - (alo + 0) = 0 from by omega]
      rfl
    rw [hflm]
    exact ⟨rfl, fun t ht => absurd (show t < 0 from ht) (by omega)⟩

/-! ## Diagonality of the collected blocks and opcodes -/

theorem matchingBlocksFuel_diag (a b : List Token) (hsub : substOnly a b) :
    ∀ fuel alo ahi, ahi ≤ b.length →
      ∀ blk ∈ matchingBlocksFuel a b fuel alo ahi alo ahi,
        diagBlock a b blk := by
  intro fuel
  induction fuel with
  | zero =>
    intro alo ahi _ blk hblk
    rw [show matchingBlocksFuel a b 0 alo ahi alo ahi = [] from rfl] at hblk
    exact absurd hblk (List.not_mem_nil blk)
  | succ fuel ih =>
    intro alo ahi hahi blk hblk
    rw [matchingBlocksFuel_succ] at hblk
    by_cases hk0 : (findLongestMatch a b alo ahi alo ahi).2.2 = 0
    · rw [if_pos hk0] at hblk
      exact absurd hblk (List.not_mem_nil blk)
    · rw [if_neg hk0] at hblk
      obtain ⟨hd, hv⟩ := findLongestMatch_diag a b alo ahi hsub hahi
      obtain ⟨hb1, hb2, hb3, hb4⟩ :=
        findLongestMatch_bounds a b alo ahi alo ahi hk0
      rcases List.mem_append.mp hblk with hL | hR
      · by_cases hc : alo < (findLongestMatch a b alo ahi alo ahi).1 ∧
            alo < (findLongestMatch a b alo ahi alo ahi).2.1
        · rw [if_pos hc] at hL
          rw [← hd] at hL
          exact ih alo (findLongestMatch a b alo ahi alo ahi).1
            (by omega) blk hL
        · rw [if_neg hc] at hL
          exact absurd hL (List.not_mem_nil blk)
      · rcases List.mem_cons.mp hR with rfl | hR2
        · exact ⟨hd, hv⟩
        · by_cases hc : (findLongestMatch a b alo ahi alo ahi).1 +
              (findLongestMatch a b alo ahi alo ahi).2.2 < ahi ∧
              (findLongestMatch a b alo ahi alo ahi).2.1 +
              (findLongestMatch a b alo ahi alo ahi).2.2 < ahi
          · rw [if_pos hc] at hR2
            rw [← hd] at hR2
            exact ih ((findLongestMatch a b alo ahi alo ahi).1 +
              (findLongestMatch a b alo ahi alo ahi).2.2) ahi hahi blk hR2
          · rw [if_neg hc] at hR2
            exact absurd hR2 (List.not_mem_nil blk)

theorem collapseBlocks_diag (a b : List Token) :
    ∀ bs acc, diagBlock a b acc → (∀ blk ∈ bs, diagBlock a b blk) →
      ∀ blk ∈ collapseBlocks acc bs, diagBlock a b blk := by
  intro bs
  induction bs with
  | nil =>
    intro acc hacc _ blk hblk
    rw [collapseBlocks] at hblk
    by_cases hk : acc.2.2 ≠ 0
    · rw [if_pos hk] at hblk
      rw [List.mem_singleton] at hblk
      subst hblk
      exact hacc
    · rw [if_neg hk] at hblk
      exact absurd hblk (List.not_mem_nil blk)
  | cons hd rest ih =>
    obtain ⟨i2, j2, k2⟩ := hd
    intro acc hacc hmem blk hblk
    rw [collapseBlocks] at hblk
    have hhd : diagBlock a b (i2, j2, k2) :=
      hmem _ (List.mem_cons_self _ _)
    have hh1 : i2 = j2 := hhd.1
    by_cases hadj : acc.1 + acc.2.2 = i2 ∧ acc.2.1 + acc.2.2 = j2
    · rw [if_pos hadj] at hblk
      refine ih (acc.1, acc.2.1, acc.2.2 + k2) ?_
        (fun x hx => hmem x (List.mem_cons_of_mem _ hx)) blk hblk
      refine ⟨hacc.1, ?_⟩
      intro t ht
      have ht2 : t < acc.2.2 + k2 := ht
      show a.getD (acc.1 + t) "" = b.getD (acc.1 + t) ""
      rcases Nat.lt_or_ge t acc.2.2 with hlt | hge
      · exact hacc.2 t hlt
      · have hu : t - acc.2.2 < k2 := by omega
        have hidx : acc.1 + t = i2 + (t - acc.2.2) := by
          have := hadj.1
          omega
        have hval := hhd.2 (t - acc.2.2) hu
        rw [hidx]
        exact hval
    · rw [if_neg hadj] at hblk
      rcases List.mem_append.mp hblk with hacc2 | htail
      · by_cases hk : acc.2.2 ≠ 0
        · rw [if_pos hk] at hacc2
          rw [List.mem_singleton] at hacc2
          subst hacc2
          exact hacc
        · rw [if_neg hk] at hacc2
          exact absurd hacc2 (List.not_mem_nil blk)
      · exact ih (i2, j2, k2) hhd
          (fun x hx => hmem x (List.mem_cons_of_mem _ hx)) blk htail

theorem opsDiag_append (a b : List Token) (l1 l2 : List Opcode)
    (h1 : opsDiag a b l1) (h2 : opsDiag a b l2) : opsDiag a b (l1 ++ l2) := by
  intro op hop
  rcases List.mem_append.mp hop with h | h
  · exact h1 op h
  · exact h2 op h

theorem opcodesLoop_diag (a b : List Token) (n : Nat) :
    ∀ bs, (∀ blk ∈ bs, diagBlock a b blk) →
      ∀ i, opsDiag a b (opcodesLoop i i (bs ++ [(n, n, 0)])) := by
  intro bs
  induction bs with
  | nil =>
    intro _ i
    rw [List.nil_append, opcodesLoop]
    have hz : ¬((0 : Nat) ≠ 0) := by omega
    rw [if_neg hz, opcodesLoop]
    by_cases hin : i < n ∧ i < n
    · rw [if_pos hin]
      intro op hop
      simp only [List.nil_append, List.append_nil] at hop
      rw [List.mem_singleton] at hop
      subst hop
      exact ⟨rfl, rfl, Or.inr rfl, fun he =>
        absurd (show ("replace" : String) = "equal" from he) (by decide)⟩
    · rw [if_neg hin, if_neg (fun h => hin ⟨h, h⟩),
        if_neg (fun h => hin ⟨h, h⟩)]
      intro op hop
      simp at hop
  | cons hd rest ih =>
    obtain ⟨ai, bj, k⟩ := hd
    intro hdiag i
    have hd0 : diagBlock a b (ai, bj, k) :=
      hdiag _ (List.mem_cons_self _ _)
    have hd1 : ai = bj := hd0.1
    subst hd1
    have hd2 : ∀ t, t < k → a.getD (ai + t) "" = b.getD (ai + t) "" :=
      fun t ht => hd0.2 t ht
    rw [List.cons_append, opcodesLoop]
    have htail := ih (fun x hx => hdiag x (List.mem_cons_of_mem _ hx)) (ai + k)
    have heqpart : opsDiag a b
        (if k ≠ 0 then [⟨"equal", ai, ai + k, ai, ai + k⟩] else []) := by
      by_cases hk : k ≠ 0
      · rw [if_pos hk]
        intro op hop
        rw [List.mem_singleton] at hop
        subst hop
        refine ⟨rfl, rfl, Or.inl rfl, fun _ t ht => ?_⟩
        have ht2 : ai + t < ai + k := ht
        exact hd2 t (by omega)
      · rw [if_neg hk]
        intro op hop
        exact absurd hop (List.not_mem_nil op)
    by_cases hik : i < ai
    · rw [if_pos ⟨hik, hik⟩]
      refine opsDiag_append a b _ _ (opsDiag_append a b _ _ ?_ heqpart) htail
      intro op hop
      rw [List.mem_singleton] at hop
      subst hop
      exact ⟨rfl, rfl, Or.inr rfl, fun he =>
        absurd (show ("replace" : String) = "equal" from he) (by decide)⟩
    · rw [if_neg (fun h => hik h.1), if_neg hik, if_neg hik,
        List.nil_append]
      exact opsDiag_append a b _ _ heqpart htail

theorem getOpcodes_diag (a b : List Token) (hsub : substOnly a b) :
    opsDiag a b (getOpcodes a b) := by
  have hlen : b.length = a.length := hsub.1.symm
  show opsDiag a b (opcodesLoop 0 0 (collapseBlocks (0, 0, 0)
    (sortBlocks (matchingBlocksFuel a b a.length 0 a.length 0 b.length))
    ++ [(a.length, b.length, 0)]))
  rw [hlen]
  have hraw := matchingBlocksFuel_wf a b a.length 0 a.length 0 a.length
    (Nat.zero_le _) (Nat.zero_le _)
  rw [sortBlocks_of_pairwise _
    (blocksWFE_pairwise a.length a.length _ 0 0 hraw)]
  exact opcodesLoop_diag a b a.length _
    (collapseBlocks_diag a b _ (0, 0, 0)
      ⟨rfl, fun t ht => absurd (show t < 0 from ht) (by omega)⟩
      (matchingBlocksFuel_diag a b hsub a.length 0 a.length
        (le_of_eq hsub.1))) 0

/-! ## Reconstruction along a diagonal opcode list (claim C3) -/

theorem zip_split : ∀ (xs ts1 ts2 : List String), ts1.length ≤ xs.length →
    xs.zip (ts1 ++ ts2) =
      (xs.take ts1.length).zip ts1 ++ (xs.drop ts1.length).zip ts2 := by
  intro xs ts1
  induction ts1 generalizing xs with
  | nil => intro ts2 _; simp
  | cons t ts ih =>
    intro ts2 hlen
    cases xs with
    | nil => simp at hlen
    | cons x xs =>
      rw [List.cons_append, List.zip_cons_cons, List.length_cons,
        List.take_succ_cons, List.drop_succ_cons, List.zip_cons_cons,
        List.cons_append, ih xs ts2 (by simpa using hlen)]

theorem applyLoop_append (l1 l2 : List (String × String)) :
    applyLoop (l1 ++ l2) = applyLoop l1 ++ applyLoop l2 := by
  rw [applyLoop_eq_flatMap, applyLoop_eq_flatMap, applyLoop_eq_flatMap,
    List.flatMap_append]

theorem applyLoop_keeps : ∀ xs : List String,
    applyLoop (xs.zip (List.replicate xs.length KEEP)) = xs := by
  intro xs
  induction xs with
  | nil => rfl
  | cons x xs ih =>
    rw [List.length_cons, List.replicate_succ, List.zip_cons_cons, applyLoop,
      if_pos rfl, ih]
    rfl

theorem applyLoop_keeps_of_len (xs : List String) (k : Nat)
    (h : xs.length = k) :
    applyLoop (xs.zip (List.replicate k KEEP)) = xs := by
  subst h
  exact applyLoop_keeps xs

theorem applyLoop_replaces : ∀ ws xs : List String, xs.length = ws.length →
    applyLoop (xs.zip (ws.map (fun w => REPLACE ++ w))) = ws := by
  intro ws
  induction ws with
  | nil =>
    intro xs h
    rw [List.length_eq_zero.mp h]
    rfl
  | cons w ws ih =>
    intro xs h
    cases xs with
    | nil => simp at h
    | cons x xs =>
      rw [List.map_cons, List.zip_cons_cons, applyLoop,
        if_neg (replace_append_ne_keep w), if_neg (replace_append_ne_delete w),
        if_pos (is_replace_replace_append w), stripTagPayload_replace w,
        ih xs (by simpa using h)]
      rfl

theorem drop_eq_slice_append (l : List Token) (i i2 : Nat) (h1 : i ≤ i2) :
    l.drop i = pySlice l i i2 ++ l.drop i2 := by
  conv_lhs => rw [← List.take_append_drop (i2 - i) (l.drop i)]
  rw [List.drop_drop, show i + (i2 - i) = i2 from by omega]
  rfl

theorem take_eq_of_agree (a b : List Token) (i k : Nat)
    (hka : i + k ≤ a.length) (hkb : i + k ≤ b.length)
    (hv : ∀ t, t < k → a.getD (i + t) "" = b.getD (i + t) "") :
    (a.drop i).take k = (b.drop i).take k := by
  apply List.ext_getElem
  · rw [List.length_take, List.length_take, List.length_drop,
      List.length_drop]
    omega
  · intro t h1 h2
    rw [List.getElem_take, List.getElem_take, List.getElem_drop,
      List.getElem_drop]
    have hta : i + t < a.length := by
      rw [List.length_take, List.length_drop] at h1
      omega
    have htb : i + t < b.length := by
      rw [List.length_take, List.length_drop] at h2
      omega
    have hvt := hv t (by
      rw [List.length_take, List.length_drop] at h1
      omega)
    rwa [List.getD_eq_getElem a "" hta, List.getD_eq_getElem b "" htb] at hvt

theorem applyLoop_diag (a b : List Token) :
    ∀ ops i, opsWF a.length a.length i i ops → opsDiag a b ops →
      a.length = b.length →
      applyLoop ((a.drop i).zip (diagTagsFor b ops)) = b.drop i := by
  intro ops
  induction ops with
  | nil =>
    intro i hwf _ hlen
    obtain ⟨hi, _⟩ := hwf
    subst hi
    rw [diagTagsFor, List.drop_length, hlen, List.drop_length]
    rfl
  | cons op rest ih =>
    intro i hwf hdiag hlen
    obtain ⟨h1, h2, h3, h4, h5, h6, hkind, hrest⟩ := hwf
    obtain ⟨hd1, hd2, hdkind, hdeq⟩ := hdiag op (List.mem_cons_self _ _)
    have hdrest : opsDiag a b rest :=
      fun x hx => hdiag x (List.mem_cons_of_mem _ hx)
    rw [← hd2] at hrest
    have hih := ih op.i2 hrest hdrest hlen
    rw [diagTagsFor, h1, h2, ← hd2]
    rcases hdkind with hopeq | hoprep
    · rw [if_pos hopeq]
      rw [zip_split (a.drop i) _ _ (by
        rw [List.length_replicate, List.length_drop]
        omega)]
      rw [applyLoop_append, List.length_replicate]
      rw [applyLoop_keeps_of_len _ _ (by
        rw [List.length_take, List.length_drop]
        omega)]
      have hdd : (a.drop i).drop (op.i2 - i) = a.drop op.i2 := by
        rw [List.drop_drop, show i + (op.i2 - i) = op.i2 from by omega]
      rw [hdd, hih]
      have hseg : (a.drop i).take (op.i2 - i) = (b.drop i).take (op.i2 - i) := by
        apply take_eq_of_agree a b i (op.i2 - i) (by omega) (by omega)
        intro t ht
        have hvt := hdeq hopeq t (by omega)
        rw [h1] at hvt
        exact hvt
      rw [hseg]
      exact (drop_eq_slice_append b i op.i2 (by omega)).symm
    · rw [if_neg (show ¬op.op = "equal" from by
        rw [hoprep]
        decide)]
      have hbl : (pySlice b i op.i2).length = op.i2 - i :=
        pySlice_length b i op.i2 (by omega) (by omega)
      rw [zip_split (a.drop i) _ _ (by
        rw [List.length_map, hbl, List.length_drop]
        omega)]
      rw [applyLoop_append, List.length_map, hbl]
      rw [applyLoop_replaces (pySlice b i op.i2)
        ((a.drop i).take (op.i2 - i)) (by
          rw [List.length_take, List.length_drop, hbl]
          omega)]
      have hdd : (a.drop i).drop (op.i2 - i) = a.drop op.i2 := by
        rw [List.drop_drop, show i + (op.i2 - i) = op.i2 from by omega]
      rw [hdd, hih]
      exact (drop_eq_slice_append b i op.i2 (by omega)).symm

theorem walkNoFuse_diag_tags (orig cor : List Token) :
    ∀ ops i tags gaps, opsWF orig.length orig.length i i ops →
      opsDiag orig cor ops → orig.length = cor.length →
      (walkNoFuse orig cor ops tags gaps).1 = tags ++ diagTagsFor cor ops := by
  intro ops
  induction ops with
  | nil =>
    intro i tags gaps _ _ _
    rw [walkNoFuse, diagTagsFor, List.append_nil]
  | cons op rest ih =>
    intro i tags gaps hwf hdiag hlen
    obtain ⟨h1, h2, h3, h4, h5, h6, hkind, hrest⟩ := hwf
    obtain ⟨hd1, hd2, hdkind, hdeq⟩ := hdiag op (List.mem_cons_self _ _)
    have hdrest : opsDiag orig cor rest :=
      fun x hx => hdiag x (List.mem_cons_of_mem _ hx)
    rw [← hd2] at hrest
    rw [walkNoFuse]
    rcases hdkind with hopeq | hoprep
    · have hstep : stepNoFuse orig cor op tags gaps =
          (tags ++ List.replicate (op.i2 - op.i1) KEEP, gaps) := by
        unfold stepNoFuse
        rw [hopeq, if_pos rfl]
      rw [ih op.i2 _ _ hrest hdrest hlen, hstep]
      show tags ++ List.replicate (op.i2 - op.i1) KEEP ++
          diagTagsFor cor rest = tags ++ diagTagsFor cor (op :: rest)
      rw [diagTagsFor, if_pos hopeq, List.append_assoc]
    · have hsoLen : (pySlice orig op.i1 op.i2).length = op.i2 - op.i1 :=
        pySlice_length orig op.i1 op.i2 h3 h4
      have hscLen : (pySlice cor op.j1 op.j2).length = op.i2 - op.i1 := by
        rw [pySlice_length cor op.j1 op.j2 h5 (by omega)]
        omega
      have hstep : stepNoFuse orig cor op tags gaps =
          (tags ++ List.map (fun t => REPLACE ++ t)
            (pySlice cor op.j1 op.j2), gaps) := by
        unfold stepNoFuse
        rw [hoprep, if_neg (by decide : ¬("replace" : String) = "equal"),
          if_neg (by decide : ¬("replace" : String) = "delete"), if_pos rfl,
          if_pos (by rw [hsoLen, hscLen])]
      rw [ih op.i2 _ _ hrest hdrest hlen, hstep]
      show tags ++ List.map (fun t => REPLACE ++ t) (pySlice cor op.j1 op.j2)
          ++ diagTagsFor cor rest = tags ++ diagTagsFor cor (op :: rest)
      rw [diagTagsFor, if_neg (show ¬op.op = "equal" from by
        rw [hoprep]
        decide), List.append_assoc]

/-- Claim C3 as stated is false on the code: swapping two adjacent
    tokens is an equal-length positionwise substitution, yet the tags
    produced are [KEEP, DELETE] with a gap insert, and reconstruction
    yields "a", not the corrected sentence "b a". -/
theorem roundtrip_counterexample :
    (["a", "b"] : List Token).length = (["b", "a"] : List Token).length ∧
    apply_tags ["a", "b"] (diff_to_tags ["a", "b"] ["b", "a"]).tags ≠
      String.intercalate " " ["b", "a"] := by
  decide

/-- Claim C3, amended: the round-trip holds for equal-length
    substitution-only edits provided every substituted token is foreign
    to the other sequence (no substituted-out token occurs in corr and
    no substituted-in token occurs in orig), which rules out
    crossing matches such as swaps. -/
theorem roundtrip_subst_only (orig corr : List Token)
    (hsub : substOnly orig corr) :
    apply_tags orig (diff_to_tags orig corr).tags =
      String.intercalate " " corr := by
  have hlen : orig.length = corr.length := hsub.1
  have hwf := getOpcodes_wf orig corr
  rw [show corr.length = orig.length from hlen.symm] at hwf
  have hdiag := getOpcodes_diag orig corr hsub
  have htags : (diff_to_tags orig corr).tags =
      diagTagsFor corr (getOpcodes orig corr) := by
    show (diffWalk orig corr (getOpcodes orig corr) []
      (List.replicate (orig.length + 1) "KEEP_GAP")).1 = _
    rw [diffWalk_eq_walkNoFuse orig corr _ _ _ (getOpcodes_noDelIns orig corr)]
    rw [walkNoFuse_diag_tags orig corr (getOpcodes orig corr) 0 _ _
      hwf hdiag hlen]
    rw [List.nil_append]
  rw [htags, apply_tags]
  have happ := applyLoop_diag orig corr (getOpcodes orig corr) 0 hwf hdiag hlen
  rw [List.drop_zero, List.drop_zero] at happ
  rw [happ]

/-- Witness for the amended claim C3 on a concrete substitution-only
    pair. -/
theorem roundtrip_subst_only_witness :
    substOnly ["x", "fuil", "y"] ["x", "full", "y"] ∧
    apply_tags ["x", "fuil", "y"]
      (diff_to_tags ["x", "fuil", "y"] ["x", "full", "y"]).tags =
      String.intercalate " " ["x", "full", "y"] :=
  ⟨by unfold substOnly; decide,
   roundtrip_subst_only ["x", "fuil", "y"] ["x", "full", "y"]
    (by unfold substOnly; decide)⟩

/-! ## Alignment of a sequence with itself (claim C4) -/

theorem extendBack_full (a : List Token) (alo : Nat) :
    ∀ besti s, alo ≤ besti →
      extendBack a a alo alo besti besti s = (alo, alo, s + (besti - alo)) := by
  intro besti
  induction besti with
  | zero =>
    intro s h
    have h0 : alo = 0 := by omega
    subst h0
    rw [extendBack]
    simp
  | succ n ih =>
    intro s h
    rw [extendBack]
    by_cases hc : alo < n + 1 ∧ alo < n + 1 ∧
        a.getD n "" = a.getD (n + 1 - 1) ""
    · rw [if_pos hc, show n + 1 - 1 = n from rfl, ih (s + 1) (by omega),
        show s + 1 + (n - alo) = s + (n + 1 - alo) from by omega]
    · have halo : alo = n + 1 := by
        by_contra hne
        have hlt : alo < n + 1 := by omega
        exact hc ⟨hlt, hlt, by rw [show n + 1 - 1 = n from rfl]⟩
      rw [if_neg hc, halo]
      simp

theorem extendFwdGo_full (a : List Token) (bhi besti : Nat) :
    ∀ fuel s, besti + s + fuel ≤ bhi →
      extendFwdGo a a bhi besti besti fuel s = s + fuel := by
  intro fuel
  induction fuel with
  | zero => intro s _; rfl
  | succ n ih =>
    intro s h
    rw [extendFwdGo, if_pos ⟨by omega, rfl⟩, ih (s + 1) (by omega)]
    omega

theorem findLongestMatch_full (a : List Token) (alo ahi : Nat)
    (hahi : ahi ≤ a.length) :
    findLongestMatch a a alo ahi alo ahi = (alo, alo, ahi - alo) := by
  rcases le_or_lt alo ahi with hle | hlt
  · have hsub : substOnly a a := ⟨rfl, fun i _ => Or.inl rfl⟩
    obtain ⟨hdB, _⟩ := flmLoop_diag a a alo ahi hsub hahi (ahi - alo) alo
      (fun _ => 0) (alo, alo, 0) le_rfl (by omega)
      (fun x => by rw [if_pos rfl]) rfl
      (fun t ht => absurd (show t < 0 from ht) (by omega))
      (fun t h1 h2 => absurd (show t < alo from h2) (by omega))
    have hbest := flmLoop_inv a a alo ahi alo ahi (ahi - alo) alo
      (fun _ => 0) (alo, alo, 0) le_rfl (by omega)
      (fun x hx => by simp at hx) (Or.inl rfl)
    have hbest2 : bestInv alo ahi alo ahi
        ((flmLoop a a alo ahi (List.range' alo (ahi - alo))
            (fun _ => 0) (alo, alo, 0)).2.1,
         (flmLoop a a alo ahi (List.range' alo (ahi - alo))
            (fun _ => 0) (alo, alo, 0)).2.2.1,
         (flmLoop a a alo ahi (List.range' alo (ahi - alo))
            (fun _ => 0) (alo, alo, 0)).2.2.2) := hbest
    have hbds : alo ≤ (flmLoop a a alo ahi (List.range' alo (ahi - alo))
          (fun _ => 0) (alo, alo, 0)).2.1 ∧
        (flmLoop a a alo ahi (List.range' alo (ahi - alo))
          (fun _ => 0) (alo, alo, 0)).2.1 +
        (flmLoop a a alo ahi (List.range' alo (ahi - alo))
          (fun _ => 0) (alo, alo, 0)).2.2.2 ≤ ahi := by
      rcases hbest2 with heq | ⟨_, hb2, _, hb4, _⟩
      · have e1 : (flmLoop a a alo ahi (List.range' alo (ahi - alo))
            (fun _ => 0) (alo, alo, 0)).2.1 = alo := congrArg Prod.fst heq
        have e3 : (flmLoop a a alo ahi (List.range' alo (ahi - alo))
            (fun _ => 0) (alo, alo, 0)).2.2.2 =
            0 := congrArg (fun p => p.2.2) heq
        rw [e1, e3]
        exact ⟨le_rfl, by omega⟩
      · exact ⟨hb2, hb4⟩
    rw [findLongestMatch_eq]
    rw [← hdB]
    generalize hbj : (flmLoop a a alo ahi (List.range' alo (ahi - alo))
      (fun _ => 0) (alo, alo, 0)).2.1 = bj at hbds ⊢
    generalize hbk : (flmLoop a a alo ahi (List.range' alo (ahi - alo))
      (fun _ => 0) (alo, alo, 0)).2.2.2 = bk at hbds ⊢
    rw [extendBack_full a alo bj bk hbds.1]
    simp only
    rw [extendFwdGo_full a ahi alo (ahi - (alo + (bk + (bj - alo))))
      (bk + (bj - alo)) (by omega)]
    simp only [Prod.mk.injEq]
    refine ⟨trivial, trivial, ?_⟩
    omega
  · rw [findLongestMatch_eq]
    rw [show ahi - alo = 0 from by omega]
    simp only [List.range']
    rw [flmLoop]
    simp only
    rw [extendBack_stop]
    simp only
    rw [show ahi - (alo + 0) = 0 from by omega]
    rfl

theorem getMatchingBlocks_self_pos (a : List Token) (h0 : a.length ≠ 0) :
    getMatchingBlocks a a = [(0, 0, a.length), (a.length, a.length, 0)] := by
  obtain ⟨m, hm⟩ : ∃ m, a.length = m + 1 := ⟨a.length - 1, by omega⟩
  show collapseBlocks (0, 0, 0)
    (sortBlocks (matchingBlocksFuel a a a.length 0 a.length 0 a.length))
    ++ [(a.length, a.length, 0)] = _
  have hmb : matchingBlocksFuel a a a.length 0 a.length 0 a.length =
      [(0, 0, a.length)] := by
    rw [hm, matchingBlocksFuel_succ,
      findLongestMatch_full a 0 (m + 1) (by omega)]
    simp only [Nat.sub_zero]
    rw [if_neg (show ¬(m + 1 = 0) from by omega)]
    rw [if_neg (show ¬((0 : Nat) < 0 ∧ (0 : Nat) < 0) from
      fun hc => Nat.lt_irrefl 0 hc.1)]
    rw [if_neg (show ¬(0 + (m + 1) < m + 1 ∧ 0 + (m + 1) < m + 1) from
      by omega)]
    rfl
  rw [hmb, show sortBlocks [((0 : Nat), (0 : Nat), a.length)] =
    [(0, 0, a.length)] from rfl]
  rw [collapseBlocks]
  show collapseBlocks (0, 0, 0 + a.length) [] ++ [(a.length, a.length, 0)] =
    [(0, 0, a.length), (a.length, a.length, 0)]
  rw [collapseBlocks]
  show (if 0 + a.length ≠ 0 then [((0 : Nat), (0 : Nat), 0 + a.length)]
      else []) ++ [(a.length, a.length, 0)] =
    [(0, 0, a.length), (a.length, a.length, 0)]
  rw [if_pos (show (0 : Nat) + a.length ≠ 0 from by omega)]
  rw [Nat.zero_add]
  rfl

theorem getOpcodes_self_pos (a : List Token) (h0 : a.length ≠ 0) :
    getOpcodes a a = [⟨"equal", 0, a.length, 0, a.length⟩] := by
  show opcodesLoop 0 0 (getMatchingBlocks a a) = _
  rw [getMatchingBlocks_self_pos a h0, opcodesLoop]
  rw [if_neg (show ¬((0 : Nat) < 0 ∧ (0 : Nat) < 0) from
    fun hc => Nat.lt_irrefl 0 hc.1)]
  rw [if_neg (show ¬((0 : Nat) < 0) from Nat.lt_irrefl 0)]
  rw [if_neg (show ¬((0 : Nat) < 0) from Nat.lt_irrefl 0)]
  rw [if_pos (show a.length ≠ 0 from h0)]
  simp only [Nat.zero_add]
  rw [opcodesLoop]
  rw [if_neg (show ¬(a.length < a.length ∧ a.length < a.length) from
    fun hc => Nat.lt_irrefl _ hc.1)]
  rw [if_neg (show ¬(a.length < a.length) from Nat.lt_irrefl _)]
  rw [if_neg (show ¬(a.length < a.length) from Nat.lt_irrefl _)]
  rw [if_neg (show ¬((0 : Nat) ≠ 0) from by omega)]
  rw [opcodesLoop]
  rfl

/-- Claim C4: aligning a token sequence with itself yields all-KEEP
    tags, one per token. -/
theorem align_identity (T : List Token) :
    (diff_to_tags T T).tags = List.replicate T.length KEEP := by
  by_cases h0 : T.length = 0
  · have hT : T = [] := List.length_eq_zero.mp h0
    subst hT
    rfl
  · show (diffWalk T T (getOpcodes T T) []
      (List.replicate (T.length + 1) "KEEP_GAP")).1 = _
    rw [getOpcodes_self_pos T h0, diffWalk]
    unfold stepNoFuse
    rw [if_pos rfl]
    simp only []
    rw [List.nil_append, Nat.sub_zero]

end Spellfix
